import Mathlib

/-!
Verification of the `newcollector` crawling/processing pipeline.

This file gives a shallow embedding of the pipeline's data model and of the
operations implemented in `src/db/target_db.py`, `src/storage/downloader.py`,
`src/processor/llm_renamer.py`, `src/sync/incremental_sync.py` and
`src/main_v3.py`, and proves (or refutes) the behavioural properties claimed
for them.  Database tables are modelled as Lean lists of rows, Python strings
as Lean `String` (manipulated through their underlying `List Char`), HTTP and
LLM collaborators as explicit input parameters.
-/

set_option autoImplicit false

namespace NewCollector

/-! ### Basic character-list helpers (Python string semantics) -/

/-- `s.lower()` on the character level (ASCII case folding, which is all the
code relies on: the extension patterns are ASCII). -/
def lowerL (l : List Char) : List Char := l.map Char.toLower

/-- Python `p.startswith(...)`-style test on character lists. -/
def isPrefixL (p l : List Char) : Bool :=
  match p, l with
  | [], _ => true
  | _ :: _, [] => false
  | a :: as_, b :: bs => a = b && isPrefixL as_ bs

/-- Python `pat in s` (substring containment) on character lists. -/
def containsSub (pat : List Char) : List Char → Bool
  | [] => pat.isEmpty
  | c :: cs => isPrefixL pat (c :: cs) || containsSub pat cs

/-- Python `s.endswith(e)` on character lists. -/
def endsWithL (e l : List Char) : Bool := e.isSuffixOf l

/-- Python `s[:n]`. -/
def strTake (n : Nat) (s : String) : String := String.mk (s.toList.take n)

/-- The document extensions recognised everywhere in the code base
(`['.pdf', '.doc', '.docx', '.xls', '.xlsx']`). -/
def supportedExtensions : List String := [".pdf", ".doc", ".docx", ".xls", ".xlsx"]

/-- `any(url_lower.endswith(ext) for ext in file_extensions)`. -/
def endsWithAny (l : List Char) : Bool :=
  supportedExtensions.any (fun e => endsWithL e.toList l)

/-! ### `src/db/target_db.py`: node rows, `batch_insert_nodes`, `mark_nodes_pruned` -/

/-- One node payload as passed to `batch_insert_nodes` (the dict built in
`_seek_to_db`: keys `Index/FatherIndex/Depth/title/Breadcrumb/Url/FatherTitle`). -/
structure NodePayload where
  node_index : Int
  father_index : Int
  depth : Int
  title : String
  breadcrumb : String
  url : String
  father_title : String
deriving DecidableEq

/-- One row of the `crawl_nodes` table.  The surrogate `id` column is not
modelled; rows are identified by the unique key `(task_id, node_index)`. -/
structure NodeRow where
  task_id : Int
  node_index : Int
  father_index : Int
  depth : Int
  title : String
  breadcrumb : String
  url : String
  father_title : String
  is_file : Bool
  file_extension : Option String
  is_pruned : Bool
deriving DecidableEq

/-- `is_file = any(url_lower.endswith(ext) for ext in file_extensions)`
computed in `batch_insert_nodes`. -/
def computeIsFile (url : String) : Bool := endsWithAny (lowerL url.toList)

/-- The `file_ext` computed in `batch_insert_nodes`: the first matching
extension with its leading dots stripped (`ext.lstrip('.')`), `None` when the
URL is not a file URL. -/
def computeFileExt (url : String) : Option String :=
  if computeIsFile url then
    (supportedExtensions.find? (fun e => endsWithL e.toList (lowerL url.toList))).map
      (fun e => String.mk (e.toList.dropWhile (fun c => c = '.')))
  else none

/-- The row written for a payload by `batch_insert_nodes`; `is_pruned` is not
in the statement's column list, so it keeps the value `pruned` (the previous
value on conflict, the column default `FALSE` on a fresh insert). -/
def payloadRow (task_id : Int) (p : NodePayload) (pruned : Bool) : NodeRow :=
  { task_id := task_id
    node_index := p.node_index
    father_index := p.father_index
    depth := p.depth
    title := p.title
    breadcrumb := p.breadcrumb
    url := p.url
    father_title := p.father_title
    is_file := computeIsFile p.url
    file_extension := computeFileExt p.url
    is_pruned := pruned }

/-- Key test for the `ON CONFLICT (task_id, node_index)` clause. -/
def nodeKeyMatch (task_id idx : Int) (r : NodeRow) : Bool :=
  r.task_id == task_id && r.node_index == idx

/-- One `INSERT ... ON CONFLICT (task_id, node_index) DO UPDATE` of
`batch_insert_nodes`: overwrite `title/breadcrumb/url/father_title/is_file/
file_extension` on an existing row (keeping `is_pruned`), append a fresh row
(with `is_pruned` at its default `FALSE`) otherwise. -/
def upsertNode (table : List NodeRow) (task_id : Int) (p : NodePayload) : List NodeRow :=
  if table.any (nodeKeyMatch task_id p.node_index) then
    table.map (fun r =>
      if nodeKeyMatch task_id p.node_index r then payloadRow task_id p r.is_pruned else r)
  else table ++ [payloadRow task_id p false]

/-- `TargetDatabase.batch_insert_nodes(task_id, nodes)`. -/
def batch_insert_nodes (table : List NodeRow) (task_id : Int)
    (nodes : List NodePayload) : List NodeRow :=
  nodes.foldl (fun t p => upsertNode t task_id p) table

/-- `TargetDatabase.mark_nodes_pruned(task_id, pruned_indices)`.  Note the
early return `if not pruned_indices: return` before the two UPDATE
statements; for a non-empty index list the reset-then-set pair amounts to
`is_pruned := node_index ∈ pruned_indices` on every row of the task. -/
def mark_nodes_pruned (table : List NodeRow) (task_id : Int)
    (pruned_indices : List Int) : List NodeRow :=
  if pruned_indices.isEmpty then table
  else
    table.map (fun r =>
      if r.task_id == task_id then
        { r with is_pruned := pruned_indices.contains r.node_index }
      else r)

/-! ### `src/db/target_db.py`: file rows and `update_file_download` -/

/-- One row of the `crawl_files` table (the columns the claims are about). -/
structure FileRow where
  id : Int
  task_id : Int
  node_id : Int
  original_url : String
  original_name : Option String
  file_extension : Option String
  renamed_name : Option String
  file_size : Option Int
  storage_path : Option String
  error_message : Option String
  download_status : String
  process_status : String
deriving DecidableEq

/-- Python truthiness of an optional string (`None` and `''` are falsy). -/
def truthyStr : Option String → Bool
  | none => false
  | some s => !(s = "")

/-- Python truthiness of an optional integer (`None` and `0` are falsy). -/
def truthyInt : Option Int → Bool
  | none => false
  | some n => !(n = 0)

/-- `TargetDatabase.update_file_download(file_id, status, storage_path,
file_size, error_message)`: `download_status` is always in the SET list; the
other three columns are added only when the argument is truthy. -/
def update_file_download (r : FileRow) (status : String)
    (storage_path : Option String) (file_size : Option Int)
    (error_message : Option String) : FileRow :=
  { r with
    download_status := status
    storage_path := if truthyStr storage_path then storage_path else r.storage_path
    file_size := if truthyInt file_size then file_size else r.file_size
    error_message := if truthyStr error_message then error_message else r.error_message }

/-- `TargetDatabase.update_file_renamed` (the columns modelled here). -/
def update_file_renamed (r : FileRow) (name : String) : FileRow :=
  { r with renamed_name := some name, process_status := "completed" }

/-- `TargetDatabase.update_file_process_failed`. -/
def update_file_process_failed (r : FileRow) (err : Option String) : FileRow :=
  { r with process_status := "failed", error_message := err }

/-! ### `src/storage/downloader.py`: `FileDownloader` -/

/-- `FileDownloader.MAX_FILE_SIZE = 50 * 1024 * 1024`. -/
def MAX_FILE_SIZE : Nat := 50 * 1024 * 1024

/-- HTTP methods, used to record which requests `download_file` performs. -/
inductive HttpMethod
  | head
  | get
deriving DecidableEq

/-- The failure cases of `download_file`, abstracting the formatted Python
error strings (`"HTTP {code}"`, `"文件过大: ...MB"`, request exceptions). -/
inductive DlError
  | httpStatus (code : Nat)
  | oversize (bytes : Nat)
  | network (msg : String)
deriving DecidableEq

/-- The observable part of a `requests.get(..., stream=True)` response:
status code, parsed `Content-Length`, the filename extracted from
`Content-Disposition` by `_get_filename_from_headers` (`none` when the header
yields nothing), `Content-Type`, and the sizes of the chunks
`iter_content(chunk_size=8192)` yields. -/
structure HttpResponse where
  status : Nat
  contentLength : Option Nat
  dispositionName : Option String
  contentType : Option String
  chunks : List Nat
deriving DecidableEq

/-- Library collaborators used by the filename logic:
`os.path.basename(unquote(urlparse(url).path))` and
`hashlib.md5(url.encode()).hexdigest()`. -/
structure Prims where
  pathBasename : String → String
  md5hex : String → String

/-- The result of `download_file`, extended with the bytes of the file left
on disk (`none` = no file remains at the local path), the number of body
bytes consumed, and the trace of HTTP requests issued. -/
structure DownloadResultM where
  success : Bool
  file_size : Option Nat
  file_name : Option String
  error : Option DlError
  diskFileBytes : Option Nat
  bytesRead : Nat
  httpCalls : List HttpMethod
deriving DecidableEq

/-- `FileDownloader._get_filename_from_url`: basename of the unquoted URL
path, or the first 16 hex digits of the URL's md5 when that basename is empty
or contains no dot. -/
def getFilenameFromUrl (pr : Prims) (url : String) : String :=
  let filename := pr.pathBasename url
  if filename = "" ∨ containsSub ['.'] filename.toList = false then
    strTake 16 (pr.md5hex url)
  else filename

/-- The `Content-Type` → extension table of `_get_extension`. -/
def mimeMap : List (String × String) :=
  [("application/pdf", ".pdf"),
   ("application/msword", ".doc"),
   ("application/vnd.openxmlformats-officedocument.wordprocessingml.document", ".docx"),
   ("application/vnd.ms-excel", ".xls"),
   ("application/vnd.openxmlformats-officedocument.spreadsheetml.sheet", ".xlsx")]

/-- `FileDownloader._get_extension`: extension of the URL-derived filename
when supported, else the first mime-map entry contained in `Content-Type`,
else `'.pdf'`. -/
def getExtension (pr : Prims) (url : String) (contentType : Option String) : String :=
  let filename := getFilenameFromUrl pr url
  match supportedExtensions.find? (fun e => endsWithL e.toList (lowerL filename.toList)) with
  | some e => e
  | none =>
    match contentType with
    | some ct =>
      match mimeMap.find? (fun me => containsSub me.1.toList ct.toList) with
      | some me => me.2
      | none => ".pdf"
    | none => ".pdf"

/-- The streaming loop of `download_file`: write each truthy chunk, add its
length to `file_size`, and abort (removing the file) as soon as
`file_size > max_size`.  `.error b` is the abort with `b` bytes received,
`.ok total` the completed download. -/
def streamChunks (maxSize : Nat) : List Nat → Nat → Except Nat Nat
  | [], acc => .ok acc
  | c :: cs, acc =>
    if c = 0 then streamChunks maxSize cs acc
    else if maxSize < acc + c then .error (acc + c)
    else streamChunks maxSize cs (acc + c)

/-- The filename chosen by `download_file` before the extension fix-up:
a truthy `save_name` wins, then a truthy `Content-Disposition` name, then
`_get_filename_from_url`. -/
def chooseBaseName (pr : Prims) (url : String) (save_name : Option String)
    (dispositionName : Option String) : String :=
  let fromHeaders :=
    match dispositionName with
    | some d => if d = "" then getFilenameFromUrl pr url else d
    | none => getFilenameFromUrl pr url
  match save_name with
  | some s => if s = "" then fromHeaders else s
  | none => fromHeaders

/-- Filename resolution plus the streaming loop: the part of `download_file`
after the status and `Content-Length` checks. -/
def downloadFileStream (pr : Prims) (url : String) (save_name : Option String)
    (maxSize : Nat) (resp : HttpResponse) : DownloadResultM :=
  let base := chooseBaseName pr url save_name resp.dispositionName
  let ext := getExtension pr url resp.contentType
  let filename := if endsWithAny (lowerL base.toList) then base else base ++ ext
  match streamChunks maxSize resp.chunks 0 with
  | .error b =>
    { success := false, file_size := some b, file_name := some filename
      error := some (.oversize b), diskFileBytes := none, bytesRead := b
      httpCalls := [.get] }
  | .ok total =>
    { success := true, file_size := some total, file_name := some filename
      error := none, diskFileBytes := some total, bytesRead := total
      httpCalls := [.get] }

/-- `FileDownloader.download_file(url, save_name, task_folder)`.  `net` is the
outcome of the single `requests.get` call: `.error` for a raised
`Timeout`/`RequestException`, `.ok` for a response.  The body performs no
other HTTP request (in particular `get_file_info`, the HEAD helper, is never
called), which the `httpCalls` trace records. -/
def download_file (pr : Prims) (url : String) (save_name : Option String)
    (maxSize : Nat) (net : Except String HttpResponse) : DownloadResultM :=
  match net with
  | .error e =>
    { success := false, file_size := none, file_name := none
      error := some (.network e), diskFileBytes := none, bytesRead := 0
      httpCalls := [.get] }
  | .ok resp =>
    if resp.status ≠ 200 then
      { success := false, file_size := none, file_name := none
        error := some (.httpStatus resp.status), diskFileBytes := none, bytesRead := 0
        httpCalls := [.get] }
    else
      match resp.contentLength with
      | some n =>
        if maxSize < n then
          { success := false, file_size := some n, file_name := none
            error := some (.oversize n), diskFileBytes := none, bytesRead := 0
            httpCalls := [.get] }
        else downloadFileStream pr url save_name maxSize resp
      | none => downloadFileStream pr url save_name maxSize resp

/-- `FileDownloader.get_file_info(url)`: the HEAD helper.  It exists in the
source but `download_file` never calls it; it is modelled here with its own
request trace to make that statable. -/
def get_file_info (resp : Option HttpResponse) :
    (Option Nat × Option String) × List HttpMethod :=
  match resp with
  | some r =>
    if r.status = 200 then ((r.contentLength, r.contentType), [.head])
    else ((none, none), [.head])
  | none => ((none, none), [.head])

/-! ### Python split/join helpers shared by the renamer and the imputation pass -/

/-- Python `s.split('_')` on character lists (always non-empty; on `''` it
yields `['']`). -/
def splitOnUnd : List Char → List (List Char)
  | [] => [[]]
  | c :: cs =>
    match splitOnUnd cs with
    | [] => [[]]
    | h :: t => if c = '_' then [] :: h :: t else (c :: h) :: t

/-- Python `'_'.join(parts)` on character lists. -/
def joinUnd : List (List Char) → List Char
  | [] => []
  | [p] => p
  | p :: ps => p ++ '_' :: joinUnd ps

/-- Helper for `rsplitDot`: split at the LAST dot, `none` when there is no
dot.  `some (a, b)` means the input is `a ++ '.' :: b` with no dot in `b`. -/
def rsplitDotAux : List Char → Option (List Char × List Char)
  | [] => none
  | c :: cs =>
    match rsplitDotAux cs with
    | some (a, b) => some (c :: a, b)
    | none => if c = '.' then some ([], cs) else none

/-- Python's `name_part, ext_part = renamed.rsplit('.', 1)` pattern used by
`fill_unknown_names`: returns `(stem, ext-with-dot)` at the last dot, or
`(l, [])` when there is no dot. -/
def rsplitDot (l : List Char) : List Char × List Char :=
  match rsplitDotAux l with
  | some (a, b) => (a, '.' :: b)
  | none => (l, [])

/-! ### `src/processor/llm_renamer.py`: `_sanitize_filename` and
`rename_from_text` -/

/-- The illegal path characters of `_sanitize_filename`
(the regex class `[/\\:*?"<>|]`). -/
def illegalChar (c : Char) : Bool :=
  c ∈ ['/', Char.ofNat 92, ':', '*', '?', Char.ofNat 34, '<', '>', '|']

/-- `re.sub(r'[/\\:*?"<>|]', '_', s)`. -/
def replIllegal (l : List Char) : List Char :=
  l.map (fun c => if illegalChar c then '_' else c)

/-- `re.sub(r'_+', '_', s)`: collapse runs of underscores.  The flag records
whether the previous emitted character was an underscore of the current run. -/
def collapseUnd : Bool → List Char → List Char
  | _, [] => []
  | prevU, c :: cs =>
    if c = '_' then
      if prevU then collapseUnd true cs else '_' :: collapseUnd true cs
    else c :: collapseUnd false cs

/-- `s.strip('_')` applied from the left. -/
def lstripUnd (l : List Char) : List Char := l.dropWhile (fun c => c = '_')

/-- `s.strip('_')` applied from the right. -/
def rstripUnd (l : List Char) : List Char := (lstripUnd l.reverse).reverse

/-- `LLMRenamer._sanitize_filename` on character lists: replace illegal
characters by `'_'`, collapse runs of `'_'`, strip leading and trailing
`'_'`. -/
def sanitizeL (l : List Char) : List Char :=
  rstripUnd (lstripUnd (collapseUnd false (replIllegal l)))

/-- `LLMRenamer._sanitize_filename` on strings. -/
def sanitize_filename (s : String) : String := String.mk (sanitizeL s.toList)

/-- The result dict parsed (by `json_repair`) from the LLM response, as read
by `rename_from_text`: `renamed` via `.get('renamed', '')` and the structured
fields via `.get(...)`. -/
structure LlmDict where
  renamed : String
  university : Option String
  department : Option String
  major : Option String
deriving DecidableEq

/-- The context dict built by the callers of `rename_from_text` (the fields
the claims are about). -/
structure RenCtx where
  school_name : Option String
  original_name : Option String
deriving DecidableEq

/-- The part of `RenameResult` the claims are about. -/
structure RenameResultM where
  success : Bool
  renamed_name : Option String
  university : Option String
deriving DecidableEq

/-- The guard `if confirmed_school and confirmed_school != 'Unknown'` of
`rename_from_text`: Python truthiness plus the explicit `'Unknown'` test. -/
def schoolOverrides (school : Option String) : Bool :=
  match school with
  | none => false
  | some s => !(s = "") && !(s = "Unknown")

/-- The name rewrite of `rename_from_text` when a confirmed school name is
present: `parts = renamed.rsplit('.', 1)`; `ext_part = '.' + parts[1]` when
the split produced two parts, else the `file_extension` argument;
`name_fields[0] = confirmed_school`; rejoin. -/
def rewriteLeadingField (renamed : List Char) (school : List Char)
    (file_extension : List Char) : List Char :=
  let stemExt := rsplitDotAux renamed
  let name_part := match stemExt with
    | some (a, _) => a
    | none => renamed
  let ext_part := match stemExt with
    | some (_, b) => '.' :: b
    | none => file_extension
  match splitOnUnd name_part with
  | [] => joinUnd [] ++ ext_part
  | _ :: rest => joinUnd (school :: rest) ++ ext_part

/-- `renamed.rsplit('.', 1)[0]` (the whole string when there is no dot). -/
def dropLastExt (l : List Char) : List Char :=
  match rsplitDotAux l with
  | some (a, _) => a
  | none => l

/-- `LLMRenamer.rename_from_text(text, context, file_extension)`, modelled
after the LLM call: `llm` is the dict parsed from the raw response.  The
`except` path (API failure) is not modelled; this is the success path that
post-processes the parsed dict. -/
def rename_from_text (llm : LlmDict) (context : RenCtx)
    (file_extension : String) : RenameResultM :=
  let override := schoolOverrides context.school_name
  let university :=
    if override then context.school_name else llm.university
  let renamed0 := llm.renamed
  if renamed0 = "" then
    { success := true, renamed_name := some renamed0, university := university }
  else
    let renamed1 :=
      if override then
        String.mk (rewriteLeadingField renamed0.toList
          ((context.school_name.getD "").toList) file_extension.toList)
      else renamed0
    let renamed2 :=
      if endsWithL file_extension.toList (lowerL renamed1.toList) then renamed1
      else String.mk (dropLastExt renamed1.toList) ++ file_extension
    let renamed3 := sanitize_filename renamed2
    { success := true, renamed_name := some renamed3, university := university }

/-! ### `src/main_v3.py`: `fill_unknown_names` (the Unknown-imputation pass) -/

/-- The three fields `fill_unknown_names` reads from a parsed
`llm_raw_response` (via `result.get(..., '')`, so a missing key is `''`). -/
structure LlmRaw where
  university : String
  department : String
  major : String
deriving DecidableEq

/-- One row returned by `get_task_files_with_llm_result` (files of the task
with `llm_processed = TRUE`, in id order).  `raw` is the parsed
`llm_raw_response`; `none` stands for a NULL response or a `json_repair`
failure (the silent `except: pass`). -/
structure ProcFile where
  id : Int
  renamed_name : Option String
  raw : Option LlmRaw
deriving DecidableEq

/-- The values a `Counter` collects for one field: parsed responses in file
order, projected and filtered. -/
def collectVals (files : List ProcFile) (sel : LlmRaw → String)
    (keep : String → Bool) : List String :=
  ((files.filterMap (fun f => f.raw)).map sel).filter keep

/-- `universities` of `fill_unknown_names`: non-empty, not `'Unknown'`. -/
def univValues (files : List ProcFile) : List String :=
  collectVals files (fun d => d.university) (fun v => !(v = "") && !(v = "Unknown"))

/-- `departments` of `fill_unknown_names`: non-empty, not `'Unknown'`. -/
def deptValues (files : List ProcFile) : List String :=
  collectVals files (fun d => d.department) (fun v => !(v = "") && !(v = "Unknown"))

/-- `majors` of `fill_unknown_names`: non-empty, not `'Unknown'` and — unlike
the other two fields — not the literal `'全専攻'`. -/
def majorValues (files : List ProcFile) : List String :=
  collectVals files (fun d => d.major)
    (fun v => !(v = "") && !(v = "Unknown") && !(v = "全専攻"))

/-- The distinct values of `l` in first-occurrence order (the key order of a
Python `Counter` built by repeated `+= 1`). -/
def firstOccKeys (l : List String) : List String :=
  l.foldl (fun acc v => if acc.contains v then acc else acc ++ [v]) []

/-- Number of occurrences of `v` in `l`. -/
def countOccur (l : List String) (v : String) : Nat := l.countP (fun w => w = v)

/-- `Counter(l).most_common(1)[0][0]` (with `none` for an empty counter):
the maximum-count value; on ties the first-inserted key wins, because
`most_common` sorts stably by descending count over the insertion-ordered
keys. -/
def mostCommon (l : List String) : Option String :=
  (firstOccKeys l).foldl
    (fun best k =>
      match best with
      | none => some k
      | some b => if countOccur l b < countOccur l k then some k else some b)
    none

/-- One positional fill of `fill_unknown_names`:
`if fill_x and len(parts) > i and parts[i] == 'Unknown'` then set position
`i` and raise the `needs_update` flag. -/
def applyFill (i : Nat) (fill : Option String) :
    List (List Char) × Bool → List (List Char) × Bool
  | (parts, flag) =>
    match fill with
    | none => (parts, flag)
    | some v =>
      if v = "" then (parts, flag)
      else if h : i < parts.length then
        if parts.get ⟨i, h⟩ = "Unknown".toList then (parts.set i v.toList, true)
        else (parts, flag)
      else (parts, flag)

/-- The per-file rewrite of `fill_unknown_names`: skip names without an
`'Unknown'` substring, split off the extension at the last dot, split the
stem on `'_'`, fill positions 0, 1, 2, and rejoin when anything changed. -/
def imputeName (fu fd fm : Option String) (renamed : String) : String :=
  let r := renamed.toList
  if r.isEmpty then renamed
  else if containsSub "Unknown".toList r = false then renamed
  else
    let stemExt := rsplitDot r
    let parts := splitOnUnd stemExt.1
    let st1 := applyFill 0 fu (parts, false)
    let st2 := applyFill 1 fd st1
    let st3 := applyFill 2 fm st2
    if st3.2 then String.mk (joinUnd st3.1 ++ stemExt.2) else renamed

/-- `OverViewV3.fill_unknown_names(task_id)` as a function on the task's
LLM-processed file rows: compute the three imputed values, return early when
no information is available, otherwise rewrite each file's `renamed_name`
(the conditional `update_renamed_name_only` calls, row-value-wise). -/
def fill_unknown_names (files : List ProcFile) : List ProcFile :=
  let univs := univValues files
  let depts := deptValues files
  let majors := majorValues files
  if univs.isEmpty && depts.isEmpty && majors.isEmpty then files
  else
    let fu := mostCommon univs
    let fd := mostCommon depts
    let fm := mostCommon majors
    files.map (fun f =>
      match f.renamed_name with
      | none => f
      | some r => { f with renamed_name := some (imputeName fu fd fm r) })

/-! ### `src/sync/incremental_sync.py` and `src/db/source_db.py` -/

/-- One row of the upstream `links` table (the fields the sync logic reads).
Lists of `LinkRecord` below stand for `SELECT ... ORDER BY id` results, so
theorems that need it assume the list is sorted by `id`. -/
structure LinkRecord where
  id : Int
  table_name : String
  url : String
deriving DecidableEq

/-- One row of `crawl_tasks` as read by the sync detector (`source_link_id`
is unique per schema). -/
structure TaskRecordM where
  source_link_id : Int
  url_hash : String
  status : String
deriving DecidableEq

/-- `SourceDatabase.get_all_links()`: only `graduate` and `undergraduate`
rows (in id order, inherited from the input list). -/
def get_all_links (links : List LinkRecord) : List LinkRecord :=
  links.filter (fun l => l.table_name = "graduate" ∨ l.table_name = "undergraduate")

/-- `SourceDatabase.get_links_by_ids(ids)`: note this queries the whole
`links` table, with no `table_name` filter. -/
def get_links_by_ids (links : List LinkRecord) (ids : List Int) : List LinkRecord :=
  links.filter (fun l => ids.contains l.id)

/-- `IncrementalSync.detect_new_links()`: links whose id has no task row. -/
def detect_new_links (links : List LinkRecord) (tasks : List TaskRecordM) :
    List LinkRecord :=
  (get_all_links links).filter
    (fun l => !((tasks.map (fun t => t.source_link_id)).contains l.id))

/-- `IncrementalSync.detect_changed_links()` with `get_changed_tasks`:
links present in `crawl_tasks` whose stored `url_hash` differs from
`md5(link.url)`.  `h` abstracts `hashlib.md5(...).hexdigest()`. -/
def detect_changed_links (h : String → String) (links : List LinkRecord)
    (tasks : List TaskRecordM) : List LinkRecord :=
  (get_all_links links).filter
    (fun l =>
      match tasks.find? (fun t => t.source_link_id == l.id) with
      | some t => !(t.url_hash = h l.url)
      | none => false)

/-- `IncrementalSync.detect_failed_tasks()`. -/
def detect_failed_tasks (tasks : List TaskRecordM) : List TaskRecordM :=
  tasks.filter (fun t => t.status = "failed")

/-- The `if link not in pending_links: pending_links.append(link)` loop. -/
def appendNew (pending extra : List LinkRecord) : List LinkRecord :=
  extra.foldl (fun acc l => if acc.contains l then acc else acc ++ [l]) pending

/-- The URL-deduplication loop of `get_pending_links`: keep the first
occurrence of each URL (`seen_urls` set plus ordered `unique_links`). -/
def dedupByUrl (l : List LinkRecord) : List LinkRecord :=
  (l.foldl
    (fun (acc : List LinkRecord × List String) link =>
      if acc.2.contains link.url then acc
      else (acc.1 ++ [link], acc.2 ++ [link.url]))
    ([], [])).1

/-- The merge step of `get_pending_links`: new links, then changed links not
already present, then the `LinkRecord`s of failed tasks not already present. -/
def mergedPending (h : String → String) (links : List LinkRecord)
    (tasks : List TaskRecordM) (include_failed include_changed : Bool) :
    List LinkRecord :=
  let p1 := detect_new_links links tasks
  let p2 := if include_changed then appendNew p1 (detect_changed_links h links tasks) else p1
  if include_failed then
    appendNew p2 (get_links_by_ids links
      ((detect_failed_tasks tasks).map (fun t => t.source_link_id)))
  else p2

/-- `IncrementalSync.get_pending_links(include_failed, include_changed,
link_type, deduplicate)`: merge, then the optional `table_name` filter, then
the optional URL deduplication. -/
def get_pending_links (h : String → String) (links : List LinkRecord)
    (tasks : List TaskRecordM) (include_failed include_changed : Bool)
    (link_type : Option String) (deduplicate : Bool) : List LinkRecord :=
  let p3 := mergedPending h links tasks include_failed include_changed
  let p4 :=
    match link_type with
    | some t => p3.filter (fun l => l.table_name = t)
    | none => p3
  if deduplicate then dedupByUrl p4 else p4

/-! ### `src/main_v3.py`: the per-task pipeline
(`crawl_single_link` → `download_files` → `process_files`) -/

/-- What a successful crawl produces: the node payloads written by
`_seek_to_db` and the retained indices written by `_pruning_to_db`. -/
structure Crawled where
  nodes : List NodePayload
  pruned : List Int
deriving DecidableEq

/-- The durable per-task state the pipeline claims are about: the task row's
status / error / counters, the task's node table, its file rows, and the
blob paths uploaded so far. -/
structure PipeState where
  task_status : String
  error_message : Option String
  node_count : Option Nat
  pruned_count : Option Nat
  file_count : Option Nat
  nodesTable : List NodeRow
  fileRows : List FileRow
  uploads : List String
deriving DecidableEq

/-- The state of a freshly created task (`create_task` inserts with
`status = 'pending'` and no child rows). -/
def initTaskState : PipeState :=
  { task_status := "pending", error_message := none, node_count := none
    pruned_count := none, file_count := none, nodesTable := [], fileRows := []
    uploads := [] }

/-- `OverViewV3.crawl_single_link(link, task_id)`.  `outcome` is the result
of the crawl (`Seek` + `Pruning`): `.ok` writes the nodes, marks the pruned
indices and sets the task `completed` with its counters; `.error e` is an
exception raised by the crawl (modelled at the `Seek` call, before any node
row is written), caught by the `except` branch which sets the task `failed`
with `error_message=str(e)[:500]`.  The intermediate `crawling` status update
is subsumed by the final one. -/
def crawl_single_link (st : PipeState) (task_id : Int)
    (outcome : Except String Crawled) : PipeState :=
  match outcome with
  | .ok c =>
    let t1 := batch_insert_nodes st.nodesTable task_id c.nodes
    let t2 := mark_nodes_pruned t1 task_id c.pruned
    { st with
      task_status := "completed"
      nodesTable := t2
      node_count := some c.nodes.length
      pruned_count := some c.pruned.length }
  | .error e =>
    { st with task_status := "failed", error_message := some (strTake 500 e) }

/-- `TargetDatabase.get_file_nodes(task_id, pruned_only=True)` (the
`ORDER BY node_index` is dropped; nothing below depends on row order). -/
def get_file_nodes (table : List NodeRow) (task_id : Int) : List NodeRow :=
  table.filter (fun r => r.task_id == task_id && r.is_file && r.is_pruned)

/-- The error text stored on a failed file row (`result.error_message`). -/
def dlErrorText : Option DlError → Option String
  | none => none
  | some (.httpStatus c) => some ("HTTP " ++ toString c)
  | some (.oversize b) => some ("oversize " ++ toString b)
  | some (.network m) => some m

/-- The per-node body of `download_files`: `create_file_record` (surrogate
ids modelled as consecutive numbers, `node_id` by the node's index), then on
success `storage.upload_file` to `task_{id}/raw/{name}` followed by
`update_file_download(..., 'completed', storage_path, file_size)`, on failure
`update_file_download(..., 'failed', error_message=...)` with no upload. -/
def downloadStep (st : PipeState) (task_id : Int) (node : NodeRow)
    (res : DownloadResultM) : PipeState :=
  let row0 : FileRow :=
    { id := (st.fileRows.length : Int)
      task_id := task_id
      node_id := node.node_index
      original_url := node.url
      original_name := some node.title
      file_extension := node.file_extension
      renamed_name := none
      file_size := none
      storage_path := none
      error_message := none
      download_status := "pending"
      process_status := "pending" }
  if res.success then
    let remote := "task_" ++ toString task_id ++ "/raw/" ++ (res.file_name.getD "")
    let row1 := update_file_download row0 "completed" (some remote)
      (res.file_size.map (fun n => (n : Int))) none
    { st with fileRows := st.fileRows ++ [row1], uploads := st.uploads ++ [remote] }
  else
    let row1 := update_file_download row0 "failed" none none (dlErrorText res.error)
    { st with fileRows := st.fileRows ++ [row1] }

/-- `OverViewV3.download_files(task_id)`: gate on `enable_download`, early
return when the task has no pruned file nodes, else one `downloadStep` per
node (`dl` gives each node's `download_file` result) and a final
`update_task_status(task_id, 'completed', file_count=...)`. -/
def download_files (st : PipeState) (task_id : Int) (enable_download : Bool)
    (dl : Int → DownloadResultM) : PipeState :=
  if !enable_download then st
  else
    let fileNodes := get_file_nodes st.nodesTable task_id
    if fileNodes.isEmpty then st
    else
      let st1 := fileNodes.foldl (fun s node => downloadStep s task_id node (dl node.node_index)) st
      { st1 with task_status := "completed", file_count := some fileNodes.length }

/-- `OverViewV3.process_files(task_id)` row-effect: for each file with
`download_status = 'completed'` and `process_status = 'pending'`, the rename
outcome `ren file_id` (`some name` = LLM success with that `renamed_name`,
`none` = failure/exception) drives `update_file_renamed` or
`update_file_process_failed`; the empty name counts as a failure
(`if result.success and result.renamed_name`).  The task row is not touched. -/
def process_files (st : PipeState) (ren : Int → Option String) : PipeState :=
  { st with
    fileRows := st.fileRows.map (fun r =>
      if r.download_status = "completed" ∧ r.process_status = "pending" then
        match ren r.id with
        | some nm =>
          if nm = "" then update_file_process_failed r (some "LLM returned an empty name")
          else update_file_renamed r nm
        | none => update_file_process_failed r (some "rename failed")
      else r) }

/-- One task's trip through `OverViewV3.run`: crawl, then downloads, then the
rename pass (the imputation pass operates on the same rows and is modelled
separately by `fill_unknown_names`). -/
def run_task (task_id : Int) (outcome : Except String Crawled)
    (enable_download enable_rename : Bool) (dl : Int → DownloadResultM)
    (ren : Int → Option String) : PipeState :=
  let s1 := crawl_single_link initTaskState task_id outcome
  let s2 := download_files s1 task_id enable_download dl
  if enable_rename then process_files s2 ren else s2

/-! ### General lemmas about the string helpers -/

theorem isPrefixL_iff (p l : List Char) : isPrefixL p l = true ↔ ∃ t, l = p ++ t := by
  induction p generalizing l with
  | nil => simp [isPrefixL]
  | cons a as ih =>
    cases l with
    | nil => simp [isPrefixL]
    | cons b bs =>
      simp only [isPrefixL, Bool.and_eq_true, decide_eq_true_eq, ih, List.cons_append,
        List.cons.injEq]
      constructor
      · rintro ⟨rfl, t, rfl⟩
        exact ⟨t, rfl, rfl⟩
      · rintro ⟨t, rfl, rfl⟩
        exact ⟨rfl, t, rfl⟩

theorem containsSub_iff (pat l : List Char) :
    containsSub pat l = true ↔ ∃ a b, l = a ++ pat ++ b := by
  induction l with
  | nil =>
    simp only [containsSub, List.isEmpty_iff]
    constructor
    · rintro rfl
      exact ⟨[], [], rfl⟩
    · rintro ⟨a, b, hab⟩
      rcases List.append_eq_nil.mp (List.append_eq_nil.mp hab.symm).1 with ⟨-, h2⟩
      exact h2
  | cons c cs ih =>
    simp only [containsSub, Bool.or_eq_true, isPrefixL_iff, ih]
    constructor
    · rintro (⟨t, ht⟩ | ⟨a, b, rfl⟩)
      · exact ⟨[], t, by simp [ht]⟩
      · exact ⟨c :: a, b, rfl⟩
    · rintro ⟨a, b, hab⟩
      cases a with
      | nil => exact Or.inl ⟨b, by simpa using hab⟩
      | cons x xs =>
        simp only [List.cons_append, List.cons.injEq] at hab
        exact Or.inr ⟨xs, b, hab.2⟩

theorem containsSub_single (c : Char) (l : List Char) :
    containsSub [c] l = true ↔ c ∈ l := by
  rw [containsSub_iff]
  constructor
  · rintro ⟨a, b, rfl⟩
    simp
  · intro hc
    rcases List.append_of_mem hc with ⟨a, b, rfl⟩
    exact ⟨a, b, by simp⟩

/-- A substring of a prefix (`take`) is a substring of the whole list. -/
theorem containsSub_of_take (pat : List Char) (l : List Char) (n : Nat)
    (h : containsSub pat (l.take n) = true) : containsSub pat l = true := by
  rw [containsSub_iff] at h ⊢
  rcases h with ⟨a, b, hab⟩
  refine ⟨a, b ++ l.drop n, ?_⟩
  conv_lhs => rw [← List.take_append_drop n l, hab]
  simp

theorem strTake_ne_empty (s : String) (n : Nat) (hn : n ≠ 0) (hs : s ≠ "") :
    strTake n s ≠ "" := by
  intro h
  apply hs
  unfold strTake at h
  have hdata : (s.toList.take n) = [] := congrArg String.toList h
  rcases Nat.exists_eq_succ_of_ne_zero hn with ⟨m, rfl⟩
  cases hl : s.toList with
  | nil =>
    cases s with
    | mk data => cases data <;> simp_all
  | cons a as => rw [hl] at hdata; simp at hdata

/-! ### Claim C1: `mark_nodes_pruned` -/

/-- A concrete node row used in counterexamples and witnesses. -/
def c1Row : NodeRow :=
  { task_id := 1, node_index := 0, father_index := -1, depth := 0, title := "root"
    breadcrumb := "", url := "https://u.example/", father_title := ""
    is_file := false, file_extension := none, is_pruned := false }

/-- C1 (counterexample): the claim says that `mark_nodes_pruned(task, S)`
followed by `mark_nodes_pruned(task, S')` leaves exactly the nodes of `S'`
marked, for every pair of index lists.  With `S = [0]` and `S' = []` the
second call hits the `if not pruned_indices: return` early exit before the
reset phase, so node 0 stays marked although `0 ∉ S'`. -/
theorem mark_nodes_pruned_empty_counterexample :
    ¬ ∀ r ∈ mark_nodes_pruned (mark_nodes_pruned [c1Row] 1 [0]) 1 ([] : List Int),
        (r.is_pruned = true ↔ r.node_index ∈ ([] : List Int)) := by
  decide

/-- C1 (amended): provided the second index list is non-empty, the composite
of two `mark_nodes_pruned` calls on a task leaves exactly the second list
marked — each such call resets all of the task's rows and then sets the
listed indices, rows of other tasks are untouched, and the result does not
depend on the first list (re-callable without loss). -/
theorem mark_nodes_pruned_last_call_wins (table : List NodeRow) (task_id : Int)
    (S Sp : List Int) (h : Sp ≠ []) :
    mark_nodes_pruned (mark_nodes_pruned table task_id S) task_id Sp =
      table.map (fun r =>
        if r.task_id == task_id then { r with is_pruned := Sp.contains r.node_index }
        else r)
    ∧ ∀ r ∈ mark_nodes_pruned (mark_nodes_pruned table task_id S) task_id Sp,
        (r.task_id = task_id → (r.is_pruned = true ↔ r.node_index ∈ Sp)) := by
  have hSp : Sp.isEmpty = false := by
    cases Sp with
    | nil => exact absurd rfl h
    | cons a l => rfl
  have hmain : mark_nodes_pruned (mark_nodes_pruned table task_id S) task_id Sp =
      table.map (fun r =>
        if r.task_id == task_id then { r with is_pruned := Sp.contains r.node_index }
        else r) := by
    unfold mark_nodes_pruned
    cases hS : S.isEmpty with
    | true => simp [hSp]
    | false =>
      simp only [hSp, Bool.false_eq_true, if_false, List.map_map]
      apply List.map_congr_left
      intro r _
      cases r with
      | mk t n fi d ti b u ft isf fe isp =>
        by_cases hr : t = task_id
        · simp [hr]
        · simp [hr]
  refine ⟨hmain, ?_⟩
  rw [hmain]
  intro r hr htid
  rcases List.mem_map.mp hr with ⟨r0, _, rfl⟩
  cases r0 with
  | mk t n fi d ti b u ft isf fe isp =>
    by_cases h0 : t = task_id
    · simp [h0]
    · simp [h0] at htid

/-- C1 (witness): the amended theorem applied at a concrete table and
concrete non-empty second list. -/
theorem mark_nodes_pruned_last_call_wins_witness :
    mark_nodes_pruned (mark_nodes_pruned [c1Row] 1 [0, 5]) 1 [0] =
      [c1Row].map (fun r =>
        if r.task_id == 1 then { r with is_pruned := ([0] : List Int).contains r.node_index }
        else r) :=
  (mark_nodes_pruned_last_call_wins [c1Row] 1 [0, 5] [0] (by decide)).1

/-! ### Claim C9: `update_file_download` -/

/-- A concrete file row used in witnesses. -/
def c9Row : FileRow :=
  { id := 7, task_id := 1, node_id := 2, original_url := "https://u.example/a.pdf"
    original_name := some "a", file_extension := some "pdf", renamed_name := none
    file_size := some 12, storage_path := some "bucket/task_1/raw/a.pdf"
    error_message := none, download_status := "pending", process_status := "pending" }

/-- C9: `update_file_download` always overwrites `download_status`; it leaves
`storage_path`, `file_size` and `error_message` unchanged when the
corresponding argument is `None`, and — because the guards test Python
truthiness — a `file_size` of `0` (and likewise an empty-string
`storage_path`/`error_message`) is also left unrecorded.  All other columns
are untouched. -/
theorem update_file_download_spec (r : FileRow) (status : String)
    (sp : Option String) (fs : Option Int) (em : Option String) :
    (update_file_download r status sp fs em).download_status = status
    ∧ (sp = none → (update_file_download r status sp fs em).storage_path = r.storage_path)
    ∧ (fs = none → (update_file_download r status sp fs em).file_size = r.file_size)
    ∧ (fs = some 0 → (update_file_download r status sp fs em).file_size = r.file_size)
    ∧ (em = none → (update_file_download r status sp fs em).error_message = r.error_message)
    ∧ (update_file_download r status sp fs em).renamed_name = r.renamed_name
    ∧ (update_file_download r status sp fs em).process_status = r.process_status
    ∧ (update_file_download r status sp fs em).id = r.id
    ∧ (update_file_download r status sp fs em).task_id = r.task_id := by
  refine ⟨rfl, ?_, ?_, ?_, ?_, rfl, rfl, rfl, rfl⟩
  · rintro rfl
    simp [update_file_download, truthyStr]
  · rintro rfl
    simp [update_file_download, truthyInt]
  · rintro rfl
    simp [update_file_download, truthyInt]
  · rintro rfl
    simp [update_file_download, truthyStr]

/-- C9 (witness): a zero-byte successful download at a concrete row — the
status is overwritten while `file_size`, `storage_path` and `error_message`
stay as they were. -/
theorem update_file_download_spec_witness :
    (update_file_download c9Row "completed" none (some 0) none).download_status = "completed"
    ∧ (update_file_download c9Row "completed" none (some 0) none).file_size = c9Row.file_size
    ∧ (update_file_download c9Row "completed" none (some 0) none).storage_path = c9Row.storage_path
    ∧ (update_file_download c9Row "completed" none (some 0) none).error_message = c9Row.error_message := by
  have T := update_file_download_spec c9Row "completed" none (some 0) none
  exact ⟨T.1, T.2.2.2.1 rfl, T.2.1 rfl, T.2.2.2.2.1 rfl⟩

/-! ### Claim C5: no HEAD request in `download_file` -/

/-- Concrete library collaborators for downloader witnesses. -/
def prims0 : Prims :=
  { pathBasename := fun _ => "a.pdf"
    md5hex := fun _ => "0123456789abcdef0123456789abcdef" }

/-- A small, well-behaved 200 response. -/
def resp0 : HttpResponse :=
  { status := 200, contentLength := some 10, dispositionName := none
    contentType := some "application/pdf", chunks := [10] }

/-- C5 (counterexample): the claim says every download attempts a HEAD
request before the GET.  On this concrete (entirely ordinary) download the
request trace of `download_file` is exactly one GET and contains no HEAD:
the body of `download_file` goes straight to `requests.get` and never calls
the HEAD helper `get_file_info`. -/
theorem download_file_no_head_counterexample :
    HttpMethod.head ∉
      (download_file prims0 "https://u.example/a.pdf" none MAX_FILE_SIZE (.ok resp0)).httpCalls
    ∧ (download_file prims0 "https://u.example/a.pdf" none MAX_FILE_SIZE (.ok resp0)).httpCalls
        = [HttpMethod.get] := by
  decide

theorem downloadFileStream_httpCalls (pr : Prims) (url : String)
    (sn : Option String) (maxSize : Nat) (resp : HttpResponse) :
    (downloadFileStream pr url sn maxSize resp).httpCalls = [HttpMethod.get] := by
  unfold downloadFileStream
  cases streamChunks maxSize resp.chunks 0 <;> rfl

/-- C5 (amended): `download_file` never performs a HEAD request — its request
trace is always exactly one GET; oversized bodies are rejected without
fetching them using the `Content-Length` header of that GET response
(checked before any body chunk is read), and the HEAD helper
`get_file_info` exists but is not called. -/
theorem download_file_single_get (pr : Prims) (url : String) (sn : Option String)
    (maxSize : Nat) (net : Except String HttpResponse) :
    (download_file pr url sn maxSize net).httpCalls = [HttpMethod.get]
    ∧ (∀ resp n, net = .ok resp → resp.status = 200 → resp.contentLength = some n →
        maxSize < n →
        (download_file pr url sn maxSize net).success = false
        ∧ (download_file pr url sn maxSize net).error = some (.oversize n)
        ∧ (download_file pr url sn maxSize net).bytesRead = 0
        ∧ (download_file pr url sn maxSize net).diskFileBytes = none) := by
  constructor
  · cases net with
    | error e => rfl
    | ok resp =>
      unfold download_file
      by_cases hs : resp.status ≠ 200
      · simp [hs]
      · simp only [hs, if_false]
        cases hcl : resp.contentLength with
        | none => exact downloadFileStream_httpCalls ..
        | some n =>
          by_cases hn : maxSize < n
          · simp [hn]
          · simp only [hn, if_false]
            exact downloadFileStream_httpCalls ..
  · rintro resp n rfl h200 hcl hlt
    unfold download_file
    simp [h200, hcl, hlt]

/-- A response whose `Content-Length` announces an oversized body. -/
def respBig : HttpResponse :=
  { status := 200, contentLength := some 200, dispositionName := none
    contentType := some "application/pdf", chunks := [] }

/-- C5 (witness): the amended theorem at a concrete oversized announcement —
one GET, rejection before any body byte. -/
theorem download_file_single_get_witness :
    (download_file prims0 "https://u.example/big.pdf" none 100 (.ok respBig)).httpCalls
      = [HttpMethod.get]
    ∧ (download_file prims0 "https://u.example/big.pdf" none 100 (.ok respBig)).success = false
    ∧ (download_file prims0 "https://u.example/big.pdf" none 100 (.ok respBig)).bytesRead = 0 := by
  have T := download_file_single_get prims0 "https://u.example/big.pdf" none 100 (.ok respBig)
  have T2 := T.2 respBig 200 rfl rfl rfl (by decide)
  exact ⟨T.1, T2.1, T2.2.2.1⟩

/-! ### Claim C6: mid-stream oversize abort -/

theorem streamChunks_abort (maxSize : Nat) (cs : List Nat) :
    ∀ acc, acc ≤ maxSize → maxSize < acc + cs.sum →
      ∃ b, streamChunks maxSize cs acc = .error b ∧ maxSize < b := by
  induction cs with
  | nil =>
    intro acc hle hlt
    simp at hlt
    exact absurd hlt (Nat.not_lt.mpr hle)
  | cons c cs ih =>
    intro acc hle hlt
    by_cases hc : c = 0
    · subst hc
      simp only [streamChunks, if_pos rfl]
      exact ih acc hle (by simpa using hlt)
    · simp only [streamChunks, if_neg hc]
      by_cases hbig : maxSize < acc + c
      · exact ⟨acc + c, by simp [hbig], hbig⟩
      · have hle2 : acc + c ≤ maxSize := Nat.not_lt.mp hbig
        have hlt2 : maxSize < acc + c + cs.sum := by
          simpa [Nat.add_assoc] using hlt
        rcases ih (acc + c) hle2 hlt2 with ⟨b, hb, hbl⟩
        exact ⟨b, by simp [hbig, hb], hbl⟩

/-- C6: whenever the received bytes would exceed `max_file_size` (default
`MAX_FILE_SIZE = 50 MiB = 52428800`), `download_file` aborts mid-stream: the
result is unsuccessful with an oversize error, the partially written file is
removed from disk, and — through the `download_files` handler — nothing is
uploaded to storage and the file row is marked `failed`, never `completed`.
(`hcl` says the `Content-Length` pre-check did not already reject the
download, i.e. the body really streams.) -/
theorem download_file_oversize_abort (pr : Prims) (url : String)
    (sn : Option String) (maxSize : Nat) (resp : HttpResponse)
    (h200 : resp.status = 200)
    (hcl : ∀ n, resp.contentLength = some n → ¬ maxSize < n)
    (hbig : maxSize < resp.chunks.sum) :
    (download_file pr url sn maxSize (.ok resp)).success = false
    ∧ (∃ b, (download_file pr url sn maxSize (.ok resp)).error = some (.oversize b)
        ∧ maxSize < b)
    ∧ (download_file pr url sn maxSize (.ok resp)).diskFileBytes = none
    ∧ MAX_FILE_SIZE = 52428800
    ∧ (∀ st task_id node,
        (downloadStep st task_id node (download_file pr url sn maxSize (.ok resp))).uploads
          = st.uploads
        ∧ ∀ fr ∈ (downloadStep st task_id node (download_file pr url sn maxSize (.ok resp))).fileRows,
            fr ∉ st.fileRows → fr.download_status = "failed") := by
  have hstream : download_file pr url sn maxSize (.ok resp)
      = downloadFileStream pr url sn maxSize resp := by
    unfold download_file
    simp only [h200, ne_eq, not_true_eq_false, if_false]
    cases hc : resp.contentLength with
    | none => rfl
    | some n => simp [hcl n hc]
  rcases streamChunks_abort maxSize resp.chunks 0 (Nat.zero_le _) (by simpa using hbig)
    with ⟨b, hb, hbl⟩
  have hres : download_file pr url sn maxSize (.ok resp)
      = { success := false
          file_size := some b
          file_name := some (let base := chooseBaseName pr url sn resp.dispositionName
            let ext := getExtension pr url resp.contentType
            if endsWithAny (lowerL base.toList) then base else base ++ ext)
          error := some (.oversize b), diskFileBytes := none, bytesRead := b
          httpCalls := [.get] } := by
    rw [hstream]
    unfold downloadFileStream
    rw [hb]
  refine ⟨by rw [hres], ⟨b, by rw [hres], hbl⟩, by rw [hres], rfl, ?_⟩
  intro st task_id node
  rw [hres]
  constructor
  · rfl
  · intro fr hfr hnew
    simp only [downloadStep, Bool.false_eq_true, if_false, List.mem_append] at hfr
    rcases hfr with h | h
    · exact absurd h hnew
    · rcases List.mem_singleton.mp h with rfl
      rfl

/-- A response that lies about its size: small `Content-Length`, oversized
body. -/
def respLiar : HttpResponse :=
  { status := 200, contentLength := some 10, dispositionName := none
    contentType := some "application/pdf", chunks := [30, 40] }

/-- C6 (witness): the theorem at a concrete streaming download that exceeds
the limit (50 < 30 + 40) after an honest-looking `Content-Length`. -/
theorem download_file_oversize_abort_witness :
    (download_file prims0 "https://u.example/liar.pdf" none 50 (.ok respLiar)).success = false
    ∧ (download_file prims0 "https://u.example/liar.pdf" none 50 (.ok respLiar)).diskFileBytes
        = none := by
  have T := download_file_oversize_abort prims0 "https://u.example/liar.pdf" none 50 respLiar
    rfl (by intro n hn; cases hn; decide) (by decide)
  exact ⟨T.1, T.2.2.1⟩

/-! ### Claim C2: task failure is exactly crawl failure -/

theorem downloadStep_frame (st : PipeState) (task_id : Int) (node : NodeRow)
    (res : DownloadResultM) :
    (downloadStep st task_id node res).task_status = st.task_status
    ∧ (downloadStep st task_id node res).error_message = st.error_message := by
  unfold downloadStep
  by_cases h : res.success <;> simp [h]

theorem downloadStep_rows (st : PipeState) (task_id : Int) (node : NodeRow)
    (res : DownloadResultM) :
    ∀ fr ∈ (downloadStep st task_id node res).fileRows,
      fr ∈ st.fileRows ∨ fr.download_status = "completed" ∨ fr.download_status = "failed" := by
  intro fr hfr
  unfold downloadStep at hfr
  by_cases h : res.success
  · simp only [h, if_true, List.mem_append, List.mem_singleton] at hfr
    rcases hfr with h1 | rfl
    · exact Or.inl h1
    · exact Or.inr (Or.inl rfl)
  · simp only [h, Bool.false_eq_true, if_false, List.mem_append, List.mem_singleton] at hfr
    rcases hfr with h1 | rfl
    · exact Or.inl h1
    · exact Or.inr (Or.inr rfl)

theorem foldl_downloadStep_frame (task_id : Int) (dl : Int → DownloadResultM)
    (nodes : List NodeRow) :
    ∀ st : PipeState,
      (nodes.foldl (fun s node => downloadStep s task_id node (dl node.node_index)) st).task_status
        = st.task_status
      ∧ (nodes.foldl (fun s node => downloadStep s task_id node (dl node.node_index)) st).error_message
        = st.error_message := by
  induction nodes with
  | nil => intro st; exact ⟨rfl, rfl⟩
  | cons n ns ih =>
    intro st
    have h1 := downloadStep_frame st task_id n (dl n.node_index)
    have h2 := ih (downloadStep st task_id n (dl n.node_index))
    exact ⟨h2.1.trans h1.1, h2.2.trans h1.2⟩

theorem foldl_downloadStep_rows (task_id : Int) (dl : Int → DownloadResultM)
    (nodes : List NodeRow) :
    ∀ st : PipeState,
      ∀ fr ∈ (nodes.foldl (fun s node => downloadStep s task_id node (dl node.node_index)) st).fileRows,
        fr ∈ st.fileRows ∨ fr.download_status = "completed" ∨ fr.download_status = "failed" := by
  induction nodes with
  | nil => intro st fr hfr; exact Or.inl hfr
  | cons n ns ih =>
    intro st fr hfr
    rcases ih (downloadStep st task_id n (dl n.node_index)) fr hfr with h | h
    · exact downloadStep_rows st task_id n (dl n.node_index) fr h
    · exact Or.inr h

theorem download_files_frame (st : PipeState) (task_id : Int)
    (enable_download : Bool) (dl : Int → DownloadResultM)
    (h : st.task_status = "completed") :
    (download_files st task_id enable_download dl).task_status = "completed"
    ∧ (download_files st task_id enable_download dl).error_message = st.error_message := by
  unfold download_files
  by_cases he : enable_download
  · rw [if_neg (by simp [he])]
    by_cases hfn : (get_file_nodes st.nodesTable task_id).isEmpty
    · rw [if_pos hfn]
      exact ⟨h, rfl⟩
    · rw [if_neg (by simp [hfn])]
      exact ⟨rfl, (foldl_downloadStep_frame task_id dl _ st).2⟩
  · rw [if_pos (by simp [he])]
    exact ⟨h, rfl⟩

theorem download_files_rows (st : PipeState) (task_id : Int)
    (enable_download : Bool) (dl : Int → DownloadResultM) :
    ∀ fr ∈ (download_files st task_id enable_download dl).fileRows,
      fr ∈ st.fileRows ∨ fr.download_status = "completed" ∨ fr.download_status = "failed" := by
  intro fr hfr
  unfold download_files at hfr
  by_cases he : enable_download
  · simp only [he, Bool.not_true, Bool.false_eq_true, if_false] at hfr
    by_cases hfn : (get_file_nodes st.nodesTable task_id).isEmpty
    · simp only [hfn, if_true] at hfr
      exact Or.inl hfr
    · simp only [hfn, Bool.false_eq_true, if_false] at hfr
      exact foldl_downloadStep_rows task_id dl _ st fr hfr
  · simp only [he, Bool.not_false, if_true] at hfr
    exact Or.inl hfr

theorem process_files_rows (st : PipeState) (ren : Int → Option String) :
    ∀ fr ∈ (process_files st ren).fileRows,
      ∃ fr0 ∈ st.fileRows, fr.download_status = fr0.download_status := by
  intro fr hfr
  unfold process_files at hfr
  simp only [List.mem_map] at hfr
  rcases hfr with ⟨fr0, h0, rfl⟩
  refine ⟨fr0, h0, ?_⟩
  by_cases hc : fr0.download_status = "completed" ∧ fr0.process_status = "pending"
  · rw [if_pos hc]
    cases hren : ren fr0.id with
    | none => rfl
    | some nm =>
      show (if nm = "" then update_file_process_failed fr0 (some "LLM returned an empty name")
        else update_file_renamed fr0 nm).download_status = fr0.download_status
      by_cases hnm : nm = ""
      · rw [if_pos hnm]
        rfl
      · rw [if_neg hnm]
        rfl
  · rw [if_neg hc]

/-- C2: a task ends `failed` with a non-null `error_message` exactly when its
crawl step raised; when the crawl succeeds the task reaches `completed`
(regardless of the per-file download/rename outcomes), its `error_message`
stays null, and every file row carries its own terminal `download_status`
(`completed` or `failed`) — per-file failures never touch the task status. -/
theorem task_failed_iff_crawl_failed (task_id : Int)
    (outcome : Except String Crawled) (enable_download enable_rename : Bool)
    (dl : Int → DownloadResultM) (ren : Int → Option String) :
    ((run_task task_id outcome enable_download enable_rename dl ren).task_status = "failed"
      ∧ (run_task task_id outcome enable_download enable_rename dl ren).error_message ≠ none
      ↔ ∃ e, outcome = .error e)
    ∧ (∀ c, outcome = .ok c →
        (run_task task_id outcome enable_download enable_rename dl ren).task_status = "completed"
        ∧ (run_task task_id outcome enable_download enable_rename dl ren).error_message = none
        ∧ ∀ fr ∈ (run_task task_id outcome enable_download enable_rename dl ren).fileRows,
            fr.download_status = "completed" ∨ fr.download_status = "failed") := by
  cases outcome with
  | error e =>
    have hrun : run_task task_id (.error e) enable_download enable_rename dl ren =
        { initTaskState with task_status := "failed"
                             error_message := some (strTake 500 e) } := by
      cases enable_download <;> cases enable_rename <;> rfl
    refine ⟨?_, ?_⟩
    · rw [hrun]
      exact ⟨fun _ => ⟨e, rfl⟩, fun _ => ⟨rfl, by simp⟩⟩
    · intro c hc
      simp at hc
  | ok c =>
    have hs1 : (crawl_single_link initTaskState task_id (.ok c)).task_status = "completed"
        ∧ (crawl_single_link initTaskState task_id (.ok c)).error_message = none :=
      ⟨rfl, rfl⟩
    have hs2 := download_files_frame (crawl_single_link initTaskState task_id (.ok c))
      task_id enable_download dl hs1.1
    have hstat : (run_task task_id (.ok c) enable_download enable_rename dl ren).task_status
        = "completed" := by
      unfold run_task
      cases enable_rename with
      | true => simpa [process_files] using hs2.1
      | false => simpa using hs2.1
    have herr : (run_task task_id (.ok c) enable_download enable_rename dl ren).error_message
        = none := by
      unfold run_task
      cases enable_rename with
      | true => simp [process_files]; rw [hs2.2, hs1.2]
      | false => simp; rw [hs2.2, hs1.2]
    refine ⟨?_, ?_⟩
    · constructor
      · intro hfe
        rw [hstat] at hfe
        exact absurd hfe.1 (by decide)
      · rintro ⟨e, he⟩
        simp at he
    · intro c' hc'
      refine ⟨hstat, herr, ?_⟩
      intro fr hfr
      have hrows : ∀ fr2 ∈ (download_files (crawl_single_link initTaskState task_id (.ok c))
          task_id enable_download dl).fileRows,
          fr2.download_status = "completed" ∨ fr2.download_status = "failed" := by
        intro fr2 hfr2
        rcases download_files_rows _ task_id enable_download dl fr2 hfr2 with h | h
        · exact absurd h (by simp [crawl_single_link, initTaskState])
        · exact h
      unfold run_task at hfr
      cases enable_rename with
      | true =>
        simp only [if_true] at hfr
        rcases process_files_rows _ ren fr hfr with ⟨fr0, hfr0, heq⟩
        rw [heq]
        exact hrows fr0 hfr0
      | false =>
        simp only [Bool.false_eq_true, if_false] at hfr
        exact hrows fr hfr

/-- C2 (witness): a concrete failed crawl produces a `failed` task with error
text, and a concrete successful crawl with one failing download still ends
`completed`. -/
theorem task_failed_iff_crawl_failed_witness :
    ((run_task 1 (.error "navigation timeout") true true
        (fun _ => download_file prims0 "https://u.example/a.pdf" none 50 (.error "timeout"))
        (fun _ => none)).task_status = "failed"
      ∧ (run_task 1 (.error "navigation timeout") true true
          (fun _ => download_file prims0 "https://u.example/a.pdf" none 50 (.error "timeout"))
          (fun _ => none)).error_message ≠ none) := by
  have T := task_failed_iff_crawl_failed 1 (.error "navigation timeout") true true
    (fun _ => download_file prims0 "https://u.example/a.pdf" none 50 (.error "timeout"))
    (fun _ => none)
  exact T.1.mpr ⟨"navigation timeout", rfl⟩

/-! ### Claim C8: `batch_insert_nodes` -/

theorem nodeKeyMatch_iff (task_id idx : Int) (r : NodeRow) :
    nodeKeyMatch task_id idx r = true ↔ r.task_id = task_id ∧ r.node_index = idx := by
  simp [nodeKeyMatch]

theorem payloadRow_key (task_id : Int) (p : NodePayload) (b : Bool) :
    nodeKeyMatch task_id p.node_index (payloadRow task_id p b) = true := by
  simp [nodeKeyMatch, payloadRow]

theorem payloadRow_key_ne (task_id idx : Int) (q : NodePayload) (b : Bool)
    (h : q.node_index ≠ idx) :
    nodeKeyMatch task_id idx (payloadRow task_id q b) = false := by
  simp [nodeKeyMatch, payloadRow, h]

/-- After the writes below, the table `t` carries payload `p` for the task:
every row keyed `(task_id, p.node_index)` holds exactly the overwritten
columns of `p` (with its own `is_pruned`), and such a row exists. -/
def carriesPayload (task_id : Int) (p : NodePayload) (t : List NodeRow) : Prop :=
  (∀ r ∈ t, nodeKeyMatch task_id p.node_index r = true →
    r = payloadRow task_id p r.is_pruned)
  ∧ ∃ r ∈ t, nodeKeyMatch task_id p.node_index r = true

theorem upsertNode_carries (t : List NodeRow) (task_id : Int) (p : NodePayload) :
    carriesPayload task_id p (upsertNode t task_id p) := by
  unfold upsertNode
  by_cases hany : t.any (nodeKeyMatch task_id p.node_index) = true
  · rw [if_pos hany]
    constructor
    · intro r hr hk
      rcases List.mem_map.mp hr with ⟨r0, h0, rfl⟩
      by_cases h0k : nodeKeyMatch task_id p.node_index r0 = true
      · rw [if_pos h0k]
        rfl
      · rw [if_neg h0k] at hk ⊢
        exact absurd hk h0k
    · rcases List.any_eq_true.mp hany with ⟨r0, h0, h0k⟩
      exact ⟨payloadRow task_id p r0.is_pruned,
        List.mem_map.mpr ⟨r0, h0, by rw [if_pos h0k]⟩, payloadRow_key ..⟩
  · rw [if_neg hany]
    constructor
    · intro r hr hk
      rcases List.mem_append.mp hr with h1 | h1
      · exact absurd (List.any_eq_true.mpr ⟨r, h1, hk⟩) hany
      · rcases List.mem_singleton.mp h1 with rfl
        rfl
    · exact ⟨payloadRow task_id p false,
        List.mem_append.mpr (Or.inr (List.mem_singleton.mpr rfl)), payloadRow_key ..⟩

theorem upsertNode_carries_preserved (t : List NodeRow) (task_id : Int)
    (p q : NodePayload) (hne : q.node_index ≠ p.node_index)
    (h : carriesPayload task_id p t) :
    carriesPayload task_id p (upsertNode t task_id q) := by
  unfold upsertNode
  by_cases hany : t.any (nodeKeyMatch task_id q.node_index) = true
  · rw [if_pos hany]
    constructor
    · intro r hr hk
      rcases List.mem_map.mp hr with ⟨r0, h0, rfl⟩
      by_cases h0k : nodeKeyMatch task_id q.node_index r0 = true
      · rw [if_pos h0k] at hk ⊢
        exact absurd hk (by simpa using payloadRow_key_ne task_id p.node_index q _ hne)
      · rw [if_neg h0k] at hk ⊢
        exact h.1 r0 h0 hk
    · rcases h.2 with ⟨r, hr, hk⟩
      have hrq : nodeKeyMatch task_id q.node_index r = false := by
        rcases (nodeKeyMatch_iff task_id p.node_index r).mp hk with ⟨-, hidx⟩
        rw [Bool.eq_false_iff]
        intro hq
        rcases (nodeKeyMatch_iff task_id q.node_index r).mp hq with ⟨-, hidx2⟩
        exact hne (by rw [← hidx2, hidx])
      refine ⟨r, List.mem_map.mpr ⟨r, hr, by simp [hrq]⟩, hk⟩
  · rw [if_neg hany]
    constructor
    · intro r hr hk
      rcases List.mem_append.mp hr with h1 | h1
      · exact h.1 r h1 hk
      · rcases List.mem_singleton.mp h1 with rfl
        exact absurd hk (by simpa using payloadRow_key_ne task_id p.node_index q _ hne)
    · rcases h.2 with ⟨r, hr, hk⟩
      exact ⟨r, List.mem_append.mpr (Or.inl hr), hk⟩

theorem batch_carries_preserved (task_id : Int) (p : NodePayload)
    (qs : List NodePayload) :
    ∀ t, (∀ q ∈ qs, q.node_index ≠ p.node_index) → carriesPayload task_id p t →
      carriesPayload task_id p (batch_insert_nodes t task_id qs) := by
  induction qs with
  | nil => intro t _ h; exact h
  | cons q qs ih =>
    intro t hq h
    exact ih (upsertNode t task_id q)
      (fun q' hq' => hq q' (List.mem_cons_of_mem q hq'))
      (upsertNode_carries_preserved t task_id p q (hq q (List.mem_cons_self q qs)) h)

theorem batch_carries (task_id : Int) (ps : List NodePayload)
    (hnd : (ps.map NodePayload.node_index).Nodup) :
    ∀ t, ∀ p ∈ ps, carriesPayload task_id p (batch_insert_nodes t task_id ps) := by
  induction ps with
  | nil => intro t p hp; cases hp
  | cons q qs ih =>
    intro t p hp
    rcases List.nodup_cons.mp hnd with ⟨hq, hqs⟩
    rcases List.mem_cons.mp hp with rfl | hmem
    · exact batch_carries_preserved task_id p qs (upsertNode t task_id p)
        (fun q' hq' hEq => hq (hEq ▸ List.mem_map_of_mem NodePayload.node_index hq'))
        (upsertNode_carries t task_id p)
    · exact ih hqs (upsertNode t task_id q) p hmem

/-- The key and prune marking of a node row: the data that `batch_insert_nodes`
must not disturb on existing rows. -/
def projKey (r : NodeRow) : Int × Int × Bool := (r.task_id, r.node_index, r.is_pruned)

theorem upsertNode_length_le (t : List NodeRow) (task_id : Int) (p : NodePayload) :
    t.length ≤ (upsertNode t task_id p).length := by
  unfold upsertNode
  by_cases hany : t.any (nodeKeyMatch task_id p.node_index) = true
  · rw [if_pos hany, List.length_map]
  · rw [if_neg hany, List.length_append]
    exact Nat.le_add_right ..

theorem upsertNode_proj (t : List NodeRow) (task_id : Int) (p : NodePayload)
    (i : Nat) (hi : i < t.length) :
    ((upsertNode t task_id p).get? i).map projKey = (t.get? i).map projKey := by
  unfold upsertNode
  by_cases hany : t.any (nodeKeyMatch task_id p.node_index) = true
  · rw [if_pos hany, List.get?_map]
    cases ht : t.get? i with
    | none => rfl
    | some r =>
      simp only [Option.map_map, Option.map_some']
      congr 1
      by_cases hk : nodeKeyMatch task_id p.node_index r = true
      · rcases (nodeKeyMatch_iff task_id p.node_index r).mp hk with ⟨h1, h2⟩
        simp [Function.comp, if_pos hk, projKey, payloadRow, h1, h2]
      · simp [Function.comp, if_neg hk]
  · rw [if_neg hany, List.get?_append hi]

theorem batch_proj (task_id : Int) (ps : List NodePayload) :
    ∀ (t : List NodeRow) (i : Nat), i < t.length →
      ((batch_insert_nodes t task_id ps).get? i).map projKey = (t.get? i).map projKey := by
  induction ps with
  | nil => intro t i _; rfl
  | cons q qs ih =>
    intro t i hi
    have hi2 : i < (upsertNode t task_id q).length :=
      Nat.lt_of_lt_of_le hi (upsertNode_length_le t task_id q)
    exact (ih (upsertNode t task_id q) i hi2).trans (upsertNode_proj t task_id q i hi)

theorem upsertNode_self (t : List NodeRow) (task_id : Int) (p : NodePayload)
    (h : carriesPayload task_id p t) : upsertNode t task_id p = t := by
  have hany : t.any (nodeKeyMatch task_id p.node_index) = true := by
    rcases h.2 with ⟨r, hr, hk⟩
    exact List.any_eq_true.mpr ⟨r, hr, hk⟩
  unfold upsertNode
  rw [if_pos hany]
  have hid : ∀ r ∈ t,
      (if nodeKeyMatch task_id p.node_index r = true then payloadRow task_id p r.is_pruned
       else r) = id r := by
    intro r hr
    by_cases hk : nodeKeyMatch task_id p.node_index r = true
    · rw [if_pos hk, ← h.1 r hr hk]
      rfl
    · rw [if_neg hk]
      rfl
  rw [List.map_congr_left hid, List.map_id]

theorem batch_self (task_id : Int) (ps : List NodePayload) :
    ∀ t, (∀ p ∈ ps, carriesPayload task_id p t) → batch_insert_nodes t task_id ps = t := by
  induction ps with
  | nil => intro t _; rfl
  | cons q qs ih =>
    intro t hall
    show batch_insert_nodes (upsertNode t task_id q) task_id qs = t
    rw [upsertNode_self t task_id q (hall q (List.mem_cons_self q qs))]
    exact ih t (fun p hp => hall p (List.mem_cons_of_mem q hp))

/-- C8: `batch_insert_nodes` upserts every node keyed `(task_id, node_index)`,
overwriting `title`, `breadcrumb`, `url`, `father_title`, `is_file` and
`file_extension`; on every written row `is_file = true` iff the URL ends
case-insensitively in one of `.pdf/.doc/.docx/.xls/.xlsx` (with
`file_extension` set to that extension without its dot, and NULL otherwise);
the key and `is_pruned` marking of every pre-existing row are untouched, and
re-inserting the same payload is a no-op (hence neither row count nor prune
markings change).  The payload indices are assumed distinct, as produced by
the crawler's `node_index` enumeration. -/
theorem batch_insert_nodes_spec (table : List NodeRow) (task_id : Int)
    (ps : List NodePayload) (hnd : (ps.map NodePayload.node_index).Nodup) :
    (∀ p ∈ ps, ∃ r ∈ batch_insert_nodes table task_id ps,
        r.task_id = task_id ∧ r.node_index = p.node_index
        ∧ r.title = p.title ∧ r.breadcrumb = p.breadcrumb ∧ r.url = p.url
        ∧ r.father_title = p.father_title
        ∧ (r.is_file = true ↔
            ∃ e ∈ supportedExtensions, endsWithL e.toList (lowerL p.url.toList) = true)
        ∧ (r.is_file = true → ∃ e ∈ supportedExtensions,
            endsWithL e.toList (lowerL p.url.toList) = true
            ∧ r.file_extension = some (String.mk (e.toList.dropWhile (fun c => c = '.'))))
        ∧ (r.is_file = false → r.file_extension = none))
    ∧ (∀ i, i < table.length →
        ((batch_insert_nodes table task_id ps).get? i).map projKey
          = (table.get? i).map projKey)
    ∧ batch_insert_nodes (batch_insert_nodes table task_id ps) task_id ps
        = batch_insert_nodes table task_id ps := by
  refine ⟨?_, fun i hi => batch_proj task_id ps table i hi,
    batch_self task_id ps _ (fun p hp => batch_carries task_id ps hnd table p hp)⟩
  intro p hp
  rcases batch_carries task_id ps hnd table p hp with ⟨hall, r, hr, hk⟩
  refine ⟨r, hr, ?_⟩
  rw [hall r hr hk]
  refine ⟨rfl, rfl, rfl, rfl, rfl, rfl, ?_, ?_, ?_⟩
  · show computeIsFile p.url = true ↔ _
    unfold computeIsFile endsWithAny
    exact List.any_eq_true
  · intro hf
    have hcf : computeIsFile p.url = true := hf
    have hsome : (supportedExtensions.find?
        (fun e => endsWithL e.toList (lowerL p.url.toList))).isSome := by
      rw [List.find?_isSome]
      unfold computeIsFile endsWithAny at hcf
      exact List.any_eq_true.mp hcf
    rcases Option.isSome_iff_exists.mp hsome with ⟨e, he⟩
    have hps : endsWithL e.toList (lowerL p.url.toList) = true := by
      have h2 := List.find?_some he
      simpa using h2
    refine ⟨e, List.mem_of_find?_eq_some he, hps, ?_⟩
    show computeFileExt p.url = _
    unfold computeFileExt
    rw [if_pos hcf, he]
    rfl
  · intro hf
    have hcf : computeIsFile p.url = false := hf
    show computeFileExt p.url = none
    unfold computeFileExt
    rw [if_neg (by simp [hcf])]

/-- Concrete crawler payloads for the C8 witness. -/
def c8Payloads : List NodePayload :=
  [{ node_index := 0, father_index := -1, depth := 0, title := "root"
     breadcrumb := "", url := "https://u.example/", father_title := "" },
   { node_index := 1, father_index := 0, depth := 1, title := "guide"
     breadcrumb := "Home", url := "https://u.example/Yoko.PDF", father_title := "root" }]

/-- C8 (witness): the theorem applied at a concrete table and payload list
with distinct indices; shown here is the idempotence conclusion. -/
theorem batch_insert_nodes_spec_witness :
    batch_insert_nodes (batch_insert_nodes [c1Row] 2 c8Payloads) 2 c8Payloads
      = batch_insert_nodes [c1Row] 2 c8Payloads :=
  (batch_insert_nodes_spec [c1Row] 2 c8Payloads (by decide)).2.2

/-! ### Split/join lemmas for the positional filename schema -/

theorem splitOnUnd_ne_nil (l : List Char) : splitOnUnd l ≠ [] := by
  cases l with
  | nil => simp [splitOnUnd]
  | cons c cs =>
    unfold splitOnUnd
    cases hs : splitOnUnd cs with
    | nil => simp
    | cons h t =>
      show (if c = '_' then [] :: h :: t else (c :: h) :: t) ≠ []
      by_cases hc : c = '_'
      · rw [if_pos hc]
        simp
      · rw [if_neg hc]
        simp

theorem joinUnd_cons_cons (p q : List Char) (ps : List (List Char)) :
    joinUnd (p :: q :: ps) = p ++ '_' :: joinUnd (q :: ps) := rfl

theorem joinUnd_splitOnUnd (l : List Char) : joinUnd (splitOnUnd l) = l := by
  induction l with
  | nil => rfl
  | cons c cs ih =>
    unfold splitOnUnd
    cases hs : splitOnUnd cs with
    | nil => exact absurd hs (splitOnUnd_ne_nil cs)
    | cons h t =>
      rw [hs] at ih
      show joinUnd (if c = '_' then [] :: h :: t else (c :: h) :: t) = c :: cs
      by_cases hc : c = '_'
      · rw [if_pos hc, joinUnd_cons_cons, ih, hc]
        rfl
      · rw [if_neg hc]
        cases t with
        | nil =>
          show c :: h = c :: cs
          rw [show h = cs from ih]
        | cons x xs =>
          rw [joinUnd_cons_cons]
          show c :: (h ++ '_' :: joinUnd (x :: xs)) = c :: cs
          rw [show h ++ '_' :: joinUnd (x :: xs) = cs from ih]

theorem splitOnUnd_head_prefix (l : List Char) :
    ∀ h t, splitOnUnd l = h :: t → ∃ r, l = h ++ r := by
  induction l with
  | nil =>
    intro h t hs
    simp [splitOnUnd] at hs
    exact ⟨[], by simp [hs.1.symm]⟩
  | cons c cs ih =>
    intro h t hs
    unfold splitOnUnd at hs
    cases hs2 : splitOnUnd cs with
    | nil => exact absurd hs2 (splitOnUnd_ne_nil cs)
    | cons h2 t2 =>
      rw [hs2] at hs
      have hs3 : (if c = '_' then [] :: h2 :: t2 else (c :: h2) :: t2) = h :: t := hs
      by_cases hc : c = '_'
      · rw [if_pos hc] at hs3
        have hh : ([] : List Char) = h := (List.cons.injEq .. ▸ hs3).1
        exact ⟨c :: cs, by rw [← hh]; rfl⟩
      · rw [if_neg hc] at hs3
        have hh : c :: h2 = h := (List.cons.injEq .. ▸ hs3).1
        rcases ih h2 t2 hs2 with ⟨r, hr⟩
        exact ⟨r, by rw [← hh, hr]; rfl⟩

theorem splitOnUnd_mem_infix (l : List Char) :
    ∀ e ∈ splitOnUnd l, ∃ a b, l = a ++ e ++ b := by
  induction l with
  | nil =>
    intro e he
    simp [splitOnUnd] at he
    exact ⟨[], [], by simp [he]⟩
  | cons c cs ih =>
    intro e he
    unfold splitOnUnd at he
    cases hs : splitOnUnd cs with
    | nil => exact absurd hs (splitOnUnd_ne_nil cs)
    | cons h t =>
      rw [hs] at he
      have he3 : e ∈ (if c = '_' then [] :: h :: t else (c :: h) :: t) := he
      by_cases hc : c = '_'
      · rw [if_pos hc] at he3
        rcases List.mem_cons.mp he3 with rfl | he2
        · exact ⟨[], c :: cs, rfl⟩
        · rcases ih e (hs ▸ he2) with ⟨a, b, hab⟩
          exact ⟨c :: a, b, by rw [hab]; rfl⟩
      · rw [if_neg hc] at he3
        rcases List.mem_cons.mp he3 with he1 | he2
        · rcases splitOnUnd_head_prefix cs h t hs with ⟨r, hr⟩
          exact ⟨[], r, by rw [he1, hr]; rfl⟩
        · rcases ih e (hs ▸ List.mem_cons_of_mem h he2) with ⟨a, b, hab⟩
          exact ⟨c :: a, b, by rw [hab]; rfl⟩

theorem rsplitDotAux_eq (l : List Char) :
    ∀ a b, rsplitDotAux l = some (a, b) → l = a ++ '.' :: b := by
  induction l with
  | nil => intro a b h; simp [rsplitDotAux] at h
  | cons c cs ih =>
    intro a b h
    unfold rsplitDotAux at h
    cases h2 : rsplitDotAux cs with
    | some ab =>
      rw [h2] at h
      rcases ab with ⟨a2, b2⟩
      simp only [Option.some.injEq, Prod.mk.injEq] at h
      rcases h with ⟨h3, h4⟩
      rw [← h3, ← h4, ih a2 b2 h2]
      rfl
    | none =>
      rw [h2] at h
      by_cases hc : c = '.'
      · rw [if_pos hc] at h
        simp only [Option.some.injEq, Prod.mk.injEq] at h
        rw [← h.1, ← h.2, hc]
        rfl
      · rw [if_neg hc] at h
        simp at h

theorem rsplitDot_eq (l : List Char) : l = (rsplitDot l).1 ++ (rsplitDot l).2 := by
  unfold rsplitDot
  cases h : rsplitDotAux l with
  | some ab =>
    rcases ab with ⟨a, b⟩
    exact rsplitDotAux_eq l a b h
  | none => simp

/-! ### Lemmas on `mostCommon` (the `Counter.most_common(1)` model) -/

theorem mem_firstOccKeys_aux (l : List String) :
    ∀ acc x, (x ∈ l.foldl (fun acc v => if acc.contains v then acc else acc ++ [v]) acc
      ↔ x ∈ acc ∨ x ∈ l) := by
  induction l with
  | nil => intro acc x; simp
  | cons v vs ih =>
    intro acc x
    show x ∈ List.foldl _ (if acc.contains v then acc else acc ++ [v]) vs ↔ _
    by_cases hv : acc.contains v = true
    · rw [if_pos hv, ih]
      constructor
      · rintro (h | h)
        · exact Or.inl h
        · exact Or.inr (List.mem_cons_of_mem v h)
      · rintro (h | h)
        · exact Or.inl h
        · rcases List.mem_cons.mp h with rfl | h2
          · exact Or.inl (by simpa using hv)
          · exact Or.inr h2
    · rw [if_neg hv, ih]
      constructor
      · rintro (h | h)
        · rcases List.mem_append.mp h with h2 | h2
          · exact Or.inl h2
          · have hx : x = v := List.mem_singleton.mp h2
            exact Or.inr (hx ▸ List.mem_cons_self v vs)
        · exact Or.inr (List.mem_cons_of_mem v h)
      · rintro (h | h)
        · exact Or.inl (List.mem_append.mpr (Or.inl h))
        · rcases List.mem_cons.mp h with rfl | h2
          · exact Or.inl (List.mem_append.mpr (Or.inr (List.mem_singleton.mpr rfl)))
          · exact Or.inr h2

theorem mem_firstOccKeys (l : List String) (x : String) :
    x ∈ firstOccKeys l ↔ x ∈ l := by
  unfold firstOccKeys
  rw [mem_firstOccKeys_aux l [] x]
  simp

/-- The generic argmax fold behind `mostCommon`. -/
theorem argmax_foldl_spec (f : String → Nat) (ks : List String) :
    ∀ b0 : Option String, ∀ v,
      ks.foldl (fun best k =>
        match best with
        | none => some k
        | some b => if f b < f k then some k else some b) b0 = some v →
      ((v ∈ ks ∨ b0 = some v)
        ∧ (∀ k ∈ ks, f k ≤ f v)
        ∧ (∀ b, b0 = some b → f b ≤ f v)) := by
  induction ks with
  | nil =>
    intro b0 v h
    simp only [List.foldl_nil] at h
    exact ⟨Or.inr h, by simp, fun b hb => by rw [hb] at h; simp at h; rw [h]⟩
  | cons k ks ih =>
    intro b0 v h
    rw [List.foldl_cons] at h
    cases b0 with
    | none =>
      have h2 := ih (some k) v h
      refine ⟨?_, ?_, fun b hb => by simp at hb⟩
      · rcases h2.1 with hm | hm
        · exact Or.inl (List.mem_cons_of_mem k hm)
        · exact Or.inl (by simp at hm; rw [← hm]; exact List.mem_cons_self k ks)
      · intro k2 hk2
        rcases List.mem_cons.mp hk2 with rfl | hk3
        · exact h2.2.2 k2 rfl
        · exact h2.2.1 k2 hk3
    | some b =>
      by_cases hfb : f b < f k
      · have heq : (List.foldl _ (if f b < f k then some k else some b) ks) = some v := h
        rw [if_pos hfb] at heq
        have h2 := ih (some k) v heq
        refine ⟨?_, ?_, ?_⟩
        · rcases h2.1 with hm | hm
          · exact Or.inl (List.mem_cons_of_mem k hm)
          · exact Or.inl (by simp at hm; rw [← hm]; exact List.mem_cons_self k ks)
        · intro k2 hk2
          rcases List.mem_cons.mp hk2 with rfl | hk3
          · exact h2.2.2 k2 rfl
          · exact h2.2.1 k2 hk3
        · intro b2 hb2
          have hbe : b = b2 := by injection hb2
          rw [← hbe]
          exact Nat.le_of_lt (Nat.lt_of_lt_of_le hfb (h2.2.2 k rfl))
      · have heq : (List.foldl _ (if f b < f k then some k else some b) ks) = some v := h
        rw [if_neg hfb] at heq
        have h2 := ih (some b) v heq
        refine ⟨?_, ?_, ?_⟩
        · rcases h2.1 with hm | hm
          · exact Or.inl (List.mem_cons_of_mem k hm)
          · exact Or.inr hm
        · intro k2 hk2
          rcases List.mem_cons.mp hk2 with rfl | hk3
          · exact Nat.le_trans (Nat.not_lt.mp hfb) (h2.2.2 b rfl)
          · exact h2.2.1 k2 hk3
        · intro b2 hb2
          exact h2.2.2 b2 hb2

/-- `mostCommon` really is a most-common value: when it returns `some v`,
`v` occurs in the list and its count dominates every other value's count. -/
theorem mostCommon_spec (l : List String) (v : String) (h : mostCommon l = some v) :
    v ∈ l ∧ ∀ w ∈ l, countOccur l w ≤ countOccur l v := by
  unfold mostCommon at h
  have h2 := argmax_foldl_spec (countOccur l) (firstOccKeys l) none v h
  refine ⟨?_, ?_⟩
  · rcases h2.1 with hm | hm
    · exact (mem_firstOccKeys l v).mp hm
    · simp at hm
  · intro w hw
    exact h2.2.1 w ((mem_firstOccKeys l w).mpr hw)

/-! ### Lemmas on `applyFill` and `imputeName` -/

/-- The per-position effect of one fill of `fill_unknown_names`: replace the
part when it is literally `Unknown` and a truthy fill value is available. -/
def fillAt (fill : Option String) (part : List Char) : List Char :=
  match fill with
  | none => part
  | some v =>
    if v = "" then part
    else if part = "Unknown".toList then v.toList else part

theorem fillAt_ne_unknown (fill : Option String) (part : List Char)
    (h : part ≠ "Unknown".toList) : fillAt fill part = part := by
  cases fill with
  | none => rfl
  | some v =>
    show (if v = "" then part else if part = "Unknown".toList then v.toList else part) = part
    by_cases hv : v = ""
    · rw [if_pos hv]
    · rw [if_neg hv, if_neg h]

theorem applyFill_fst_length (i : Nat) (fill : Option String)
    (st : List (List Char) × Bool) :
    ((applyFill i fill st).1).length = st.1.length := by
  rcases st with ⟨parts, flag⟩
  cases fill with
  | none => rfl
  | some v =>
    show (if v = "" then (parts, flag)
      else if h : i < parts.length then
        if parts.get ⟨i, h⟩ = "Unknown".toList then (parts.set i v.toList, true)
        else (parts, flag)
      else (parts, flag)).1.length = parts.length
    by_cases hv : v = ""
    · rw [if_pos hv]
    · rw [if_neg hv]
      by_cases hi : i < parts.length
      · rw [dif_pos hi]
        by_cases hu : parts.get ⟨i, hi⟩ = "Unknown".toList
        · rw [if_pos hu]
          exact List.length_set ..
        · rw [if_neg hu]
      · rw [dif_neg hi]

theorem applyFill_get_self (i : Nat) (fill : Option String)
    (st : List (List Char) × Bool) :
    ((applyFill i fill st).1).get? i = (st.1.get? i).map (fillAt fill) := by
  rcases st with ⟨parts, flag⟩
  cases fill with
  | none =>
    show parts.get? i = (parts.get? i).map (fillAt none)
    cases parts.get? i <;> rfl
  | some v =>
    show (if v = "" then (parts, flag)
      else if h : i < parts.length then
        if parts.get ⟨i, h⟩ = "Unknown".toList then (parts.set i v.toList, true)
        else (parts, flag)
      else (parts, flag)).1.get? i = (parts.get? i).map (fillAt (some v))
    by_cases hv : v = ""
    · rw [if_pos hv]
      show parts.get? i = _
      cases hg : parts.get? i with
      | none => rfl
      | some part => simp [fillAt, hv]
    · rw [if_neg hv]
      by_cases hi : i < parts.length
      · rw [dif_pos hi]
        have hg : parts.get? i = some (parts.get ⟨i, hi⟩) := List.get?_eq_get hi
        by_cases hu : parts.get ⟨i, hi⟩ = "Unknown".toList
        · rw [if_pos hu]
          show (parts.set i v.toList).get? i = _
          rw [List.get?_set_eq_of_lt v.toList hi, hg]
          rw [List.get_eq_getElem] at hu
          simp [fillAt, hv, hu]
        · rw [if_neg hu]
          show parts.get? i = _
          rw [hg]
          rw [List.get_eq_getElem] at hu
          simp [fillAt_ne_unknown _ _ hu]
      · rw [dif_neg hi]
        show parts.get? i = _
        rw [List.get?_eq_none.mpr (Nat.le_of_not_lt hi)]
        rfl

theorem applyFill_get_ne (i j : Nat) (fill : Option String)
    (st : List (List Char) × Bool) (hij : j ≠ i) :
    ((applyFill i fill st).1).get? j = st.1.get? j := by
  rcases st with ⟨parts, flag⟩
  cases fill with
  | none => rfl
  | some v =>
    show (if v = "" then (parts, flag)
      else if h : i < parts.length then
        if parts.get ⟨i, h⟩ = "Unknown".toList then (parts.set i v.toList, true)
        else (parts, flag)
      else (parts, flag)).1.get? j = parts.get? j
    by_cases hv : v = ""
    · rw [if_pos hv]
    · rw [if_neg hv]
      by_cases hi : i < parts.length
      · rw [dif_pos hi]
        by_cases hu : parts.get ⟨i, hi⟩ = "Unknown".toList
        · rw [if_pos hu]
          exact List.get?_set_ne v.toList parts (fun h => hij h.symm)
        · rw [if_neg hu]
      · rw [dif_neg hi]

theorem applyFill_flag_false (i : Nat) (fill : Option String)
    (st : List (List Char) × Bool) (h : (applyFill i fill st).2 = false) :
    (applyFill i fill st).1 = st.1 ∧ st.2 = false := by
  rcases st with ⟨parts, flag⟩
  cases fill with
  | none => exact ⟨rfl, h⟩
  | some v =>
    have h2 : (if v = "" then (parts, flag)
      else if hl : i < parts.length then
        if parts.get ⟨i, hl⟩ = "Unknown".toList then (parts.set i v.toList, true)
        else (parts, flag)
      else (parts, flag)).2 = false := h
    show (if v = "" then (parts, flag)
      else if hl : i < parts.length then
        if parts.get ⟨i, hl⟩ = "Unknown".toList then (parts.set i v.toList, true)
        else (parts, flag)
      else (parts, flag)).1 = parts ∧ flag = false
    by_cases hv : v = ""
    · rw [if_pos hv] at h2 ⊢
      exact ⟨rfl, h2⟩
    · rw [if_neg hv] at h2 ⊢
      by_cases hi : i < parts.length
      · rw [dif_pos hi] at h2 ⊢
        by_cases hu : parts.get ⟨i, hi⟩ = "Unknown".toList
        · rw [if_pos hu] at h2
          simp at h2
        · rw [if_neg hu] at h2 ⊢
          exact ⟨rfl, h2⟩
      · rw [dif_neg hi] at h2 ⊢
        exact ⟨rfl, h2⟩

/-- The list of a `String.mk`. -/
theorem toList_mk (l : List Char) : (String.mk l).toList = l := rfl

/-- The structural characterization of the per-file rewrite: the name splits
as underscore parts plus a (possibly empty) dot extension; the rewritten
name has the same extension, the same number of parts, identical parts from
position 3 on, and positions 0, 1, 2 filled exactly when they are literally
`Unknown` and a truthy fill value exists. -/
theorem imputeName_parts (fu fd fm : Option String) (r : String) :
    ∃ parts parts3 extPart,
      r.toList = joinUnd parts ++ extPart
      ∧ (imputeName fu fd fm r).toList = joinUnd parts3 ++ extPart
      ∧ parts3.length = parts.length
      ∧ (∀ j, 3 ≤ j → parts3.get? j = parts.get? j)
      ∧ parts3.get? 0 = (parts.get? 0).map (fillAt fu)
      ∧ parts3.get? 1 = (parts.get? 1).map (fillAt fd)
      ∧ parts3.get? 2 = (parts.get? 2).map (fillAt fm) := by
  have hsplit : r.toList = joinUnd (splitOnUnd (rsplitDot r.toList).1) ++ (rsplitDot r.toList).2 := by
    rw [joinUnd_splitOnUnd]
    exact rsplitDot_eq r.toList
  set parts := splitOnUnd (rsplitDot r.toList).1 with hparts
  set extPart := (rsplitDot r.toList).2 with hext
  have hnu : containsSub "Unknown".toList r.toList = false →
      ∀ j, (parts.get? j).map (fillAt (match j with | 0 => fu | 1 => fd | _ => fm))
        = parts.get? j := by
    intro hcs j
    cases hg : parts.get? j with
    | none => rfl
    | some part =>
      have hmem : part ∈ parts := List.get?_mem hg
      have hne : part ≠ "Unknown".toList := by
        intro heq
        rcases splitOnUnd_mem_infix _ part hmem with ⟨a, b, hab⟩
        have hcst : containsSub "Unknown".toList r.toList = true := by
          rw [containsSub_iff]
          refine ⟨a, b ++ extPart, ?_⟩
          have hstem : joinUnd parts = (rsplitDot r.toList).1 := by
            rw [hparts, joinUnd_splitOnUnd]
          rw [hsplit, hstem, hab, heq]
          simp
        rw [hcst] at hcs
        cases hcs
      simp [fillAt_ne_unknown _ _ hne]
  unfold imputeName
  by_cases hemp : r.toList.isEmpty
  · rw [if_pos hemp]
    have hr0 : r.toList = [] := List.isEmpty_iff.mp hemp
    have hcs : containsSub "Unknown".toList r.toList = false := by
      rw [hr0]
      decide
    refine ⟨parts, parts, extPart, hsplit, hsplit, rfl, fun j _ => rfl, ?_, ?_, ?_⟩
    · exact (hnu hcs 0).symm
    · exact (hnu hcs 1).symm
    · exact (hnu hcs 2).symm
  · rw [if_neg hemp]
    by_cases hcs : containsSub "Unknown".toList r.toList = false
    · rw [if_pos hcs]
      refine ⟨parts, parts, extPart, hsplit, hsplit, rfl, fun j _ => rfl, ?_, ?_, ?_⟩
      · exact (hnu hcs 0).symm
      · exact (hnu hcs 1).symm
      · exact (hnu hcs 2).symm
    · rw [if_neg hcs]
      set st1 := applyFill 0 fu (parts, false) with hst1
      set st2 := applyFill 1 fd st1 with hst2
      set st3 := applyFill 2 fm st2 with hst3
      have hlen : st3.1.length = parts.length := by
        rw [hst3, applyFill_fst_length, hst2, applyFill_fst_length, hst1,
          applyFill_fst_length]
      have hge : ∀ j, 3 ≤ j → st3.1.get? j = parts.get? j := by
        intro j hj
        rw [hst3, applyFill_get_ne 2 j _ _ (by omega), hst2,
          applyFill_get_ne 1 j _ _ (by omega), hst1, applyFill_get_ne 0 j _ _ (by omega)]
      have hg0 : st3.1.get? 0 = (parts.get? 0).map (fillAt fu) := by
        rw [hst3, applyFill_get_ne 2 0 _ _ (by omega), hst2,
          applyFill_get_ne 1 0 _ _ (by omega), hst1, applyFill_get_self]
      have hg1 : st3.1.get? 1 = (parts.get? 1).map (fillAt fd) := by
        rw [hst3, applyFill_get_ne 2 1 _ _ (by omega), hst2, applyFill_get_self, hst1,
          applyFill_get_ne 0 1 _ _ (by omega)]
      have hg2 : st3.1.get? 2 = (parts.get? 2).map (fillAt fm) := by
        rw [hst3, applyFill_get_self, hst2, applyFill_get_ne 1 2 _ _ (by omega), hst1,
          applyFill_get_ne 0 2 _ _ (by omega)]
      by_cases hflag : st3.2 = true
      · rw [if_pos hflag]
        exact ⟨parts, st3.1, extPart, hsplit, toList_mk _, hlen, hge, hg0, hg1, hg2⟩
      · rw [if_neg hflag]
        have h3 := applyFill_flag_false 2 fm st2 (Bool.eq_false_iff.mpr hflag)
        have h2 := applyFill_flag_false 1 fd st1 h3.2
        have h1 := applyFill_flag_false 0 fu (parts, false) h2.2
        have hsame : st3.1 = parts := by
          rw [hst3, h3.1, hst2, h2.1, hst1, h1.1]
        refine ⟨parts, st3.1, extPart, hsplit, by rw [hsame]; exact hsplit, hlen, hge,
          hg0, hg1, hg2⟩

/-! ### Claim C3: the Unknown-imputation pass -/

theorem imputeName_none (r : String) : imputeName none none none r = r := by
  unfold imputeName
  by_cases h1 : r.toList.isEmpty
  · rw [if_pos h1]
  · rw [if_neg h1]
    by_cases h2 : containsSub "Unknown".toList r.toList = false
    · rw [if_pos h2]
    · rw [if_neg h2]
      rfl

/-- The imputed value exactly as the spec sentence describes it: the most
common among the field's values that are not `'Unknown'`, with no further
exclusion.  (Second definition, for comparison with the code's
`majorValues`-based computation.) -/
def mostCommonNonUnknownSpec (values : List String) : Option String :=
  mostCommon (values.filter (fun v => !(v = "Unknown")))

/-- The unfiltered major values of a task's parsed LLM responses. -/
def majorPool (files : List ProcFile) : List String :=
  (files.filterMap (fun f => f.raw)).map (fun d => d.major)

def c3File (i : Int) (nm : String) (mj : String) : ProcFile :=
  { id := i, renamed_name := some nm
    raw := some { university := "U", department := "D", major := mj } }

/-- Four files of one task: `'全専攻'` is the most common non-Unknown major,
`'工学'` the runner-up, and one file has `Unknown` at position 2. -/
def c3Files : List ProcFile :=
  [c3File 1 "U_D_全専攻_M_2025_4_T_a.pdf" "全専攻",
   c3File 2 "U_D_全専攻_M_2025_4_T_b.pdf" "全専攻",
   c3File 3 "U_D_工学_M_2025_4_T_c.pdf" "工学",
   c3File 4 "U_D_Unknown_M_2025_4_T_d.pdf" "Unknown"]

/-- C3 (counterexample): the claim says the imputation uses the most common
non-`'Unknown'` value of each field.  For `major`, the code additionally
excludes the literal `'全専攻'`: on `c3Files` the most common non-Unknown
major is `'全専攻'`, yet the code imputes `'工学'` and rewrites the
`Unknown` file accordingly. -/
theorem fill_unknown_major_counterexample :
    mostCommon (majorValues c3Files) = some "工学"
    ∧ mostCommonNonUnknownSpec (majorPool c3Files) = some "全専攻"
    ∧ mostCommon (majorValues c3Files) ≠ mostCommonNonUnknownSpec (majorPool c3Files)
    ∧ ((fill_unknown_names c3Files).get? 3).map ProcFile.renamed_name
        = some (some "U_D_工学_M_2025_4_T_d.pdf") := by
  decide

/-- C3 (amended): after the task's files are terminal, the pass computes for
`university` and `department` the most common value that is non-empty and
not `'Unknown'`, and for `major` the most common value that is additionally
not the literal `'全専攻'`; it rewrites each file's `renamed_name` by
replacing exactly those of the underscore positions 0, 1, 2 that equal
`'Unknown'` (and for which an imputed value exists) with the imputed value,
leaving the number of parts, positions 3 onwards, and the dot-extension
unchanged; files without an `'Unknown'` position keep their name, ids are
preserved, and the row count is unchanged. -/
theorem fill_unknown_names_spec (files : List ProcFile) :
    (∀ v, mostCommon (univValues files) = some v →
        v ∈ univValues files ∧ ¬ v = "" ∧ ¬ v = "Unknown"
        ∧ ∀ w ∈ univValues files,
            countOccur (univValues files) w ≤ countOccur (univValues files) v)
    ∧ (∀ v, mostCommon (deptValues files) = some v →
        v ∈ deptValues files ∧ ¬ v = "" ∧ ¬ v = "Unknown"
        ∧ ∀ w ∈ deptValues files,
            countOccur (deptValues files) w ≤ countOccur (deptValues files) v)
    ∧ (∀ v, mostCommon (majorValues files) = some v →
        v ∈ majorValues files ∧ ¬ v = "" ∧ ¬ v = "Unknown" ∧ ¬ v = "全専攻"
        ∧ ∀ w ∈ majorValues files,
            countOccur (majorValues files) w ≤ countOccur (majorValues files) v)
    ∧ (fill_unknown_names files).length = files.length
    ∧ (∀ i, ((fill_unknown_names files).get? i).map ProcFile.id
        = (files.get? i).map ProcFile.id)
    ∧ (∀ i f, files.get? i = some f →
        (f.renamed_name = none → (fill_unknown_names files).get? i = some f)
        ∧ ∀ r, f.renamed_name = some r →
            ((fill_unknown_names files).get? i).map ProcFile.renamed_name
              = some (some (imputeName (mostCommon (univValues files))
                  (mostCommon (deptValues files)) (mostCommon (majorValues files)) r))
            ∧ ∃ parts parts3 extPart,
                r.toList = joinUnd parts ++ extPart
                ∧ (imputeName (mostCommon (univValues files))
                    (mostCommon (deptValues files)) (mostCommon (majorValues files)) r).toList
                  = joinUnd parts3 ++ extPart
                ∧ parts3.length = parts.length
                ∧ (∀ j, 3 ≤ j → parts3.get? j = parts.get? j)
                ∧ parts3.get? 0 = (parts.get? 0).map (fillAt (mostCommon (univValues files)))
                ∧ parts3.get? 1 = (parts.get? 1).map (fillAt (mostCommon (deptValues files)))
                ∧ parts3.get? 2 = (parts.get? 2).map (fillAt (mostCommon (majorValues files)))) := by
  refine ⟨?_, ?_, ?_, ?_, ?_, ?_⟩
  · intro v hv
    have hmem := (mostCommon_spec _ v hv).1
    have hmem2 : v ∈ ((files.filterMap (fun f => f.raw)).map
        (fun d => d.university)).filter (fun v => !(v = "") && !(v = "Unknown")) := hmem
    have hk := (List.mem_filter.mp hmem2).2
    simp only [Bool.and_eq_true, Bool.not_eq_true', decide_eq_false_iff_not] at hk
    exact ⟨hmem, hk.1, hk.2, (mostCommon_spec _ v hv).2⟩
  · intro v hv
    have hmem := (mostCommon_spec _ v hv).1
    have hmem2 : v ∈ ((files.filterMap (fun f => f.raw)).map
        (fun d => d.department)).filter (fun v => !(v = "") && !(v = "Unknown")) := hmem
    have hk := (List.mem_filter.mp hmem2).2
    simp only [Bool.and_eq_true, Bool.not_eq_true', decide_eq_false_iff_not] at hk
    exact ⟨hmem, hk.1, hk.2, (mostCommon_spec _ v hv).2⟩
  · intro v hv
    have hmem := (mostCommon_spec _ v hv).1
    have hmem2 : v ∈ ((files.filterMap (fun f => f.raw)).map
        (fun d => d.major)).filter
          (fun v => !(v = "") && !(v = "Unknown") && !(v = "全専攻")) := hmem
    have hk := (List.mem_filter.mp hmem2).2
    simp only [Bool.and_eq_true, Bool.not_eq_true', decide_eq_false_iff_not] at hk
    exact ⟨hmem, hk.1.1, hk.1.2, hk.2, (mostCommon_spec _ v hv).2⟩
  · unfold fill_unknown_names
    by_cases hg : ((univValues files).isEmpty && (deptValues files).isEmpty
        && (majorValues files).isEmpty) = true
    · rw [if_pos hg]
    · rw [if_neg hg]
      exact List.length_map ..
  · intro i
    unfold fill_unknown_names
    by_cases hg : ((univValues files).isEmpty && (deptValues files).isEmpty
        && (majorValues files).isEmpty) = true
    · rw [if_pos hg]
    · rw [if_neg hg, List.get?_map]
      cases hf : files.get? i with
      | none => rfl
      | some f =>
        simp only [Option.map_some']
        cases hrn : f.renamed_name <;> simp [hrn]
  · intro i f hf
    have hfills : ((univValues files).isEmpty && (deptValues files).isEmpty
        && (majorValues files).isEmpty) = true →
        mostCommon (univValues files) = none ∧ mostCommon (deptValues files) = none
        ∧ mostCommon (majorValues files) = none := by
      intro hg
      simp only [Bool.and_eq_true, List.isEmpty_iff] at hg
      rw [hg.1.1, hg.1.2, hg.2]
      exact ⟨rfl, rfl, rfl⟩
    constructor
    · intro hnone
      unfold fill_unknown_names
      by_cases hg : ((univValues files).isEmpty && (deptValues files).isEmpty
          && (majorValues files).isEmpty) = true
      · rw [if_pos hg]
        exact hf
      · rw [if_neg hg, List.get?_map, hf]
        simp [hnone]
    · intro r hr
      refine ⟨?_, imputeName_parts _ _ _ r⟩
      unfold fill_unknown_names
      by_cases hg : ((univValues files).isEmpty && (deptValues files).isEmpty
          && (majorValues files).isEmpty) = true
      · rw [if_pos hg, hf]
        rcases hfills hg with ⟨h1, h2, h3⟩
        rw [h1, h2, h3, imputeName_none]
        simp [hr]
      · rw [if_neg hg, List.get?_map, hf]
        simp [hr]

/-- C3 (witness): the amended theorem applied to the concrete task files —
length preserved and file 4's name rewritten through `imputeName`. -/
theorem fill_unknown_names_spec_witness :
    (fill_unknown_names c3Files).length = c3Files.length
    ∧ ((fill_unknown_names c3Files).get? 3).map ProcFile.renamed_name
        = some (some (imputeName (mostCommon (univValues c3Files))
            (mostCommon (deptValues c3Files)) (mostCommon (majorValues c3Files))
            "U_D_Unknown_M_2025_4_T_d.pdf")) := by
  have T := fill_unknown_names_spec c3Files
  exact ⟨T.2.2.2.1,
    ((T.2.2.2.2.2 3 (c3File 4 "U_D_Unknown_M_2025_4_T_d.pdf" "Unknown") rfl).2
      "U_D_Unknown_M_2025_4_T_d.pdf" rfl).1⟩

/-! ### Claim C4: `get_pending_links` deduplication -/

theorem appendNew_mem (extra : List LinkRecord) :
    ∀ (pending : List LinkRecord) (x : LinkRecord),
      x ∈ appendNew pending extra ↔ x ∈ pending ∨ x ∈ extra := by
  induction extra with
  | nil => intro p x; simp [appendNew]
  | cons e es ih =>
    intro p x
    show x ∈ appendNew (if p.contains e = true then p else p ++ [e]) es ↔ x ∈ p ∨ x ∈ e :: es
    by_cases he : p.contains e = true
    · rw [if_pos he, ih p x]
      constructor
      · rintro (hx | hx)
        · exact Or.inl hx
        · exact Or.inr (List.mem_cons_of_mem e hx)
      · rintro (hx | hx)
        · exact Or.inl hx
        · rcases List.mem_cons.mp hx with rfl | hx2
          · exact Or.inl (by simpa using he)
          · exact Or.inr hx2
    · rw [if_neg he, ih (p ++ [e]) x]
      constructor
      · rintro (hx | hx)
        · rcases List.mem_append.mp hx with h2 | h2
          · exact Or.inl h2
          · have hxe : x = e := List.mem_singleton.mp h2
            exact Or.inr (hxe ▸ List.mem_cons_self e es)
        · exact Or.inr (List.mem_cons_of_mem e hx)
      · rintro (hx | hx)
        · exact Or.inl (List.mem_append.mpr (Or.inl hx))
        · rcases List.mem_cons.mp hx with rfl | hx2
          · exact Or.inl (List.mem_append.mpr (Or.inr (List.mem_singleton.mpr rfl)))
          · exact Or.inr hx2

theorem dedup_foldl_filter (l : List LinkRecord) :
    ∀ (acc : List LinkRecord) (seen : List String) (u : String),
      ((l.foldl (fun (a : List LinkRecord × List String) link =>
          if a.2.contains link.url then a else (a.1 ++ [link], a.2 ++ [link.url]))
        (acc, seen)).1).filter (fun x => x.url = u)
      = acc.filter (fun x => x.url = u)
        ++ (if u ∈ seen then []
            else match l.find? (fun x => x.url = u) with
                 | some x => [x]
                 | none => []) := by
  induction l with
  | nil =>
    intro acc seen u
    by_cases hu : u ∈ seen
    · simp [hu]
    · simp [hu, List.find?]
  | cons x xs ih =>
    intro acc seen u
    show ((xs.foldl _ (if seen.contains x.url then (acc, seen)
        else (acc ++ [x], seen ++ [x.url]))).1).filter _ = _
    by_cases hx : seen.contains x.url = true
    · rw [if_pos hx, ih acc seen u]
      by_cases hu : u ∈ seen
      · rw [if_pos hu, if_pos hu]
      · rw [if_neg hu, if_neg hu]
        have hpx : (decide (x.url = u)) = false := by
          rw [decide_eq_false_iff_not]
          intro hxu
          have hxs : x.url ∈ seen := by simpa using hx
          rw [hxu] at hxs
          exact hu hxs
        rw [List.find?_cons, hpx]
    · rw [if_neg hx, ih (acc ++ [x]) (seen ++ [x.url]) u,
        List.filter_append]
      by_cases hu : u ∈ seen
      · have hu2 : u ∈ seen ++ [x.url] := List.mem_append.mpr (Or.inl hu)
        rw [if_pos hu, if_pos hu2]
        have hpx : (decide (x.url = u)) = false := by
          rw [decide_eq_false_iff_not]
          intro hxu
          have hxs : x.url ∉ seen := by simpa using hx
          rw [hxu] at hxs
          exact hxs hu
        simp [hpx]
      · rw [if_neg hu]
        by_cases hxu : x.url = u
        · have hmem : u ∈ [x.url] := by simp [hxu]
          have hu2 : u ∈ seen ++ [x.url] := List.mem_append.mpr (Or.inr hmem)
          rw [if_pos hu2, List.find?_cons, decide_eq_true hxu]
          simp [hxu]
        · have hu2 : u ∉ seen ++ [x.url] := by
            intro hmem
            rcases List.mem_append.mp hmem with h2 | h2
            · exact hu h2
            · exact hxu (List.mem_singleton.mp h2).symm
          rw [if_neg hu2, List.find?_cons, decide_eq_false hxu]
          simp [hxu]

theorem dedupByUrl_filter (l : List LinkRecord) (u : String) :
    (dedupByUrl l).filter (fun x => x.url = u)
      = (match l.find? (fun x => x.url = u) with
         | some x => [x]
         | none => []) := by
  unfold dedupByUrl
  rw [dedup_foldl_filter l [] [] u]
  simp

theorem dedup_foldl_mem (l : List LinkRecord) :
    ∀ (acc : List LinkRecord) (seen : List String) (x : LinkRecord),
      x ∈ (l.foldl (fun (a : List LinkRecord × List String) link =>
          if a.2.contains link.url then a else (a.1 ++ [link], a.2 ++ [link.url]))
        (acc, seen)).1 → x ∈ acc ∨ x ∈ l := by
  induction l with
  | nil => intro acc seen x hx; exact Or.inl hx
  | cons y ys ih =>
    intro acc seen x hx
    rw [List.foldl_cons] at hx
    by_cases hy : seen.contains y.url = true
    · rw [if_pos hy] at hx
      rcases ih acc seen x hx with h | h
      · exact Or.inl h
      · exact Or.inr (List.mem_cons_of_mem y h)
    · rw [if_neg hy] at hx
      rcases ih (acc ++ [y]) (seen ++ [y.url]) x hx with h | h
      · rcases List.mem_append.mp h with h2 | h2
        · exact Or.inl h2
        · have hxy : x = y := List.mem_singleton.mp h2
          exact Or.inr (hxy ▸ List.mem_cons_self y ys)
      · exact Or.inr (List.mem_cons_of_mem y h)

theorem dedupByUrl_mem (l : List LinkRecord) (x : LinkRecord)
    (hx : x ∈ dedupByUrl l) : x ∈ l := by
  rcases dedup_foldl_mem l [] [] x hx with h | h
  · cases h
  · exact h

theorem find?_min_id (p : LinkRecord → Bool) :
    ∀ l : List LinkRecord, l.Pairwise (fun a b => a.id < b.id) →
      ∀ x, l.find? p = some x → ∀ y ∈ l, p y = true → x.id ≤ y.id := by
  intro l
  induction l with
  | nil => intro _ x hx; simp at hx
  | cons a as ih =>
    intro hs x hx y hy hp
    rw [List.find?_cons] at hx
    rcases List.pairwise_cons.mp hs with ⟨ha, has⟩
    by_cases hpa : p a = true
    · rw [hpa] at hx
      have hxa : x = a := by simpa using hx.symm
      rcases List.mem_cons.mp hy with rfl | hy2
      · rw [hxa]
      · rw [hxa]
        exact Int.le_of_lt (ha y hy2)
    · rw [Bool.eq_false_iff.mpr hpa] at hx
      rcases List.mem_cons.mp hy with rfl | hy2
      · exact absurd hp hpa
      · exact ih has x (by simpa using hx) y hy2 hp

def c4L5 : LinkRecord := { id := 5, table_name := "graduate", url := "https://u.example/x" }

def c4L10 : LinkRecord := { id := 10, table_name := "graduate", url := "https://u.example/x" }

def c4Links : List LinkRecord := [c4L5, c4L10]

def c4Tasks : List TaskRecordM :=
  [{ source_link_id := 5, url_hash := "stale-hash", status := "completed" }]

/-- C4 (counterexample): the claim says the retained entry for a duplicated
URL is the one with the lowest `source_id`.  Here the URL appears under
source id 5 (an existing task whose hash changed → "changed" category) and
under source id 10 (no task → "new" category).  The merge order is
new ++ changed, so deduplication retains id 10, not the lowest id 5. -/
theorem get_pending_links_lowest_id_counterexample :
    get_pending_links (fun s => s) c4Links c4Tasks true true none true = [c4L10]
    ∧ c4L5 ∈ mergedPending (fun s => s) c4Links c4Tasks true true
    ∧ c4L5.url = c4L10.url ∧ c4L5.id < c4L10.id := by
  decide

/-- The `if link_type:` filter of `get_pending_links`, as a named function
for the statements below. -/
def kindFilter (link_type : Option String) (l : List LinkRecord) : List LinkRecord :=
  match link_type with
  | some t => l.filter (fun x => x.table_name = t)
  | none => l

/-- C4 (amended): the pending list is the union new ++ changed ++ failed
(each in ascending `source_id` order), filtered by kind and then
deduplicated by URL with the *first occurrence in that merge order* winning;
consequently no URL appears twice, every URL of the union survives, each
output entry comes from the union, and — when the union consists of new
seeds only — the retained entry for a URL is deterministically the one with
the lowest `source_id`.  Across categories, however, the earlier category
wins regardless of id. -/
theorem get_pending_links_spec (h : String → String) (links : List LinkRecord)
    (tasks : List TaskRecordM) (include_failed include_changed : Bool)
    (link_type : Option String) :
    (∀ u, (get_pending_links h links tasks include_failed include_changed link_type true).filter
          (fun x => x.url = u)
        = (match (kindFilter link_type
              (mergedPending h links tasks include_failed include_changed)).find?
                (fun x => x.url = u) with
           | some x => [x]
           | none => []))
    ∧ (∀ u, ((get_pending_links h links tasks include_failed include_changed link_type true).filter
          (fun x => x.url = u)).length ≤ 1)
    ∧ (∀ x ∈ get_pending_links h links tasks include_failed include_changed link_type true,
        x ∈ mergedPending h links tasks include_failed include_changed)
    ∧ (∀ x ∈ mergedPending h links tasks include_failed include_changed,
        x ∈ detect_new_links links tasks
        ∨ (include_changed = true ∧ x ∈ detect_changed_links h links tasks)
        ∨ (include_failed = true ∧ x ∈ get_links_by_ids links
            ((detect_failed_tasks tasks).map (fun t => t.source_link_id))))
    ∧ (∀ x ∈ detect_new_links links tasks,
        x ∈ mergedPending h links tasks include_failed include_changed)
    ∧ (∀ x ∈ kindFilter link_type (mergedPending h links tasks include_failed include_changed),
        ∃ y ∈ get_pending_links h links tasks include_failed include_changed link_type true,
          y.url = x.url)
    ∧ (links.Pairwise (fun a b => a.id < b.id) → include_changed = false →
        include_failed = false →
        ∀ x ∈ get_pending_links h links tasks include_failed include_changed link_type true,
          ∀ y ∈ kindFilter link_type (detect_new_links links tasks),
            y.url = x.url → x.id ≤ y.id) := by
  set merged := mergedPending h links tasks include_failed include_changed with hmerged
  set filtered := kindFilter link_type merged with hfiltered
  have hout : get_pending_links h links tasks include_failed include_changed link_type true
      = dedupByUrl filtered := by
    unfold get_pending_links
    rw [hfiltered]
    unfold kindFilter
    cases link_type with
    | none => rfl
    | some t => rfl
  have hchar : ∀ u, (get_pending_links h links tasks include_failed include_changed
        link_type true).filter (fun x => x.url = u)
      = (match filtered.find? (fun x => x.url = u) with
         | some x => [x]
         | none => []) := by
    intro u
    rw [hout]
    exact dedupByUrl_filter filtered u
  have hfiltered_mem : ∀ x ∈ filtered, x ∈ merged := by
    intro x hx
    rw [hfiltered] at hx
    unfold kindFilter at hx
    cases link_type with
    | none => exact hx
    | some t => exact (List.mem_filter.mp hx).1
  refine ⟨hchar, ?_, ?_, ?_, ?_, ?_, ?_⟩
  · intro u
    rw [hchar u]
    cases filtered.find? (fun x => x.url = u) <;> simp
  · intro x hx
    rw [hout] at hx
    exact hfiltered_mem x (dedupByUrl_mem filtered x hx)
  · intro x hx
    rw [hmerged] at hx
    unfold mergedPending at hx
    by_cases hif : include_failed = true
    · rw [if_pos hif] at hx
      rw [appendNew_mem] at hx
      rcases hx with hx | hx
      · by_cases hic : include_changed = true
        · rw [if_pos hic] at hx
          rw [appendNew_mem] at hx
          rcases hx with hx | hx
          · exact Or.inl hx
          · exact Or.inr (Or.inl ⟨hic, hx⟩)
        · rw [if_neg hic] at hx
          exact Or.inl hx
      · exact Or.inr (Or.inr ⟨hif, hx⟩)
    · rw [if_neg hif] at hx
      by_cases hic : include_changed = true
      · rw [if_pos hic] at hx
        rw [appendNew_mem] at hx
        rcases hx with hx | hx
        · exact Or.inl hx
        · exact Or.inr (Or.inl ⟨hic, hx⟩)
      · rw [if_neg hic] at hx
        exact Or.inl hx
  · intro x hx
    rw [hmerged]
    unfold mergedPending
    by_cases hif : include_failed = true
    · rw [if_pos hif, appendNew_mem]
      refine Or.inl ?_
      by_cases hic : include_changed = true
      · rw [if_pos hic, appendNew_mem]
        exact Or.inl hx
      · rw [if_neg hic]
        exact hx
    · rw [if_neg hif]
      by_cases hic : include_changed = true
      · rw [if_pos hic, appendNew_mem]
        exact Or.inl hx
      · rw [if_neg hic]
        exact hx
  · intro x hx
    have hfind : (filtered.find? (fun z => z.url = x.url)).isSome := by
      rw [List.find?_isSome]
      exact ⟨x, hx, by simp⟩
    rcases Option.isSome_iff_exists.mp hfind with ⟨y, hy⟩
    refine ⟨y, ?_, by simpa using List.find?_some hy⟩
    have hyf : y ∈ (get_pending_links h links tasks include_failed include_changed
        link_type true).filter (fun z => z.url = x.url) := by
      rw [hchar x.url, hy]
      exact List.mem_singleton.mpr rfl
    exact (List.mem_filter.mp hyf).1
  · intro hsort hic hif x hx y hy hyu
    subst hic
    subst hif
    have hmf : merged = detect_new_links links tasks := by
      rw [hmerged]
      unfold mergedPending
      rfl
    have hxf : x ∈ (get_pending_links h links tasks false false link_type true).filter
        (fun z => z.url = x.url) := List.mem_filter.mpr ⟨hx, by simp⟩
    rw [hchar x.url] at hxf
    cases hfind : filtered.find? (fun z => z.url = x.url) with
    | none => rw [hfind] at hxf; cases hxf
    | some z =>
      rw [hfind] at hxf
      have hxz : x = z := List.mem_singleton.mp hxf
      have hsorted : filtered.Pairwise (fun a b => a.id < b.id) := by
        rw [hfiltered, hmf]
        have hnew : (detect_new_links links tasks).Pairwise (fun a b => a.id < b.id) := by
          unfold detect_new_links get_all_links
          exact (hsort.filter _).filter _
        unfold kindFilter
        cases link_type with
        | none => exact hnew
        | some t => exact hnew.filter _
      have hymem : y ∈ filtered := by
        rw [hfiltered, hmf]
        exact hy
      have := find?_min_id (fun z => z.url = x.url) filtered hsorted z hfind y hymem
        (by simp [hyu])
      rw [hxz]
      exact this

/-- C4 (witness): with no tasks and both extra categories off, the union is
the new seeds only; on two same-URL links with ids 5 < 10 the output retains
id 5, the lowest. -/
theorem get_pending_links_spec_witness :
    get_pending_links (fun s => s) c4Links [] false false none true = [c4L5]
    ∧ ∀ x ∈ get_pending_links (fun s => s) c4Links [] false false none true,
        ∀ y ∈ detect_new_links c4Links [], y.url = x.url → x.id ≤ y.id := by
  have T := get_pending_links_spec (fun s => s) c4Links [] false false none
  exact ⟨by decide, fun x hx y hy hu =>
    T.2.2.2.2.2.2 (by decide) rfl rfl x hx y hy hu⟩

/-! ### Claim C7: `rename_from_text` — sanitizer lemmas -/

theorem replIllegal_append (a b : List Char) :
    replIllegal (a ++ b) = replIllegal a ++ replIllegal b := List.map_append ..

theorem replIllegal_no_illegal (l : List Char) :
    ∀ c ∈ replIllegal l, illegalChar c = false := by
  intro c hc
  rcases List.mem_map.mp hc with ⟨c0, -, rfl⟩
  by_cases h0 : illegalChar c0 = true
  · rw [if_pos h0]
    decide
  · rw [if_neg h0]
    exact Bool.eq_false_iff.mpr h0

theorem replIllegal_clean (l : List Char) (h : ∀ c ∈ l, illegalChar c = false) :
    replIllegal l = l := by
  unfold replIllegal
  have hid : ∀ c ∈ l, (if illegalChar c then '_' else c) = id c := by
    intro c hc
    rw [if_neg (by rw [h c hc]; exact Bool.false_ne_true)]
    rfl
  rw [List.map_congr_left hid, List.map_id]

/-- Whether the character before the current position (in `collapseUnd`'s
traversal) was an underscore, after processing `l` starting from `p`. -/
def lastUnd (p : Bool) : List Char → Bool
  | [] => p
  | c :: cs => lastUnd (c = '_') cs

theorem collapseUnd_true_und (z : List Char) :
    collapseUnd true ('_' :: z) = collapseUnd true z := rfl

theorem collapseUnd_false_und (z : List Char) :
    collapseUnd false ('_' :: z) = '_' :: collapseUnd true z := rfl

theorem collapseUnd_other (c : Char) (hc : c ≠ '_') (p : Bool) (z : List Char) :
    collapseUnd p (c :: z) = c :: collapseUnd false z := by
  show (if c = '_' then if p = true then collapseUnd true z else '_' :: collapseUnd true z
    else c :: collapseUnd false z) = c :: collapseUnd false z
  rw [if_neg hc]

theorem collapseUnd_append (xs : List Char) :
    ∀ (p : Bool) (ys : List Char),
      collapseUnd p (xs ++ ys) = collapseUnd p xs ++ collapseUnd (lastUnd p xs) ys := by
  induction xs with
  | nil => intro p ys; rfl
  | cons c cs ih =>
    intro p ys
    rw [List.cons_append]
    by_cases hc : c = '_'
    · subst hc
      by_cases hp : p = true
      · subst hp
        rw [collapseUnd_true_und, collapseUnd_true_und, ih true ys]
        have el : lastUnd true ('_' :: cs) = lastUnd true cs := rfl
        rw [el]
      · have hpf : p = false := Bool.eq_false_iff.mpr hp
        subst hpf
        rw [collapseUnd_false_und, collapseUnd_false_und, ih true ys]
        have el : lastUnd false ('_' :: cs) = lastUnd true cs := rfl
        rw [el, List.cons_append]
    · rw [collapseUnd_other c hc, collapseUnd_other c hc, ih false ys]
      have el : lastUnd p (c :: cs) = lastUnd false cs := by
        show lastUnd (decide (c = '_')) cs = lastUnd false cs
        rw [decide_eq_false hc]
      rw [el, List.cons_append]

theorem collapseUnd_no_und (ys : List Char) (h : ∀ c ∈ ys, c ≠ '_') :
    ∀ p, collapseUnd p ys = ys := by
  induction ys with
  | nil => intro p; rfl
  | cons c cs ih =>
    intro p
    unfold collapseUnd
    rw [if_neg (h c (List.mem_cons_self c cs))]
    rw [ih (fun c2 hc2 => h c2 (List.mem_cons_of_mem c hc2)) false]

theorem collapseUnd_mem (l : List Char) :
    ∀ p c, c ∈ collapseUnd p l → c ∈ l := by
  induction l with
  | nil => intro p c hc; cases hc
  | cons x xs ih =>
    intro p c hc
    unfold collapseUnd at hc
    by_cases hx : x = '_'
    · rw [if_pos hx] at hc
      by_cases hp : p = true
      · rw [if_pos hp] at hc
        exact List.mem_cons_of_mem x (ih true c hc)
      · rw [if_neg hp] at hc
        rcases List.mem_cons.mp hc with rfl | hc2
        · exact hx ▸ List.mem_cons_self x xs
        · exact List.mem_cons_of_mem x (ih true c hc2)
    · rw [if_neg hx] at hc
      rcases List.mem_cons.mp hc with rfl | hc2
      · exact List.mem_cons_self c xs
      · exact List.mem_cons_of_mem x (ih false c hc2)

theorem collapseUnd_head_true (l : List Char) :
    ∀ c, (collapseUnd true l).head? = some c → c ≠ '_' := by
  induction l with
  | nil => intro c hc; cases hc
  | cons x xs ih =>
    intro c hc
    unfold collapseUnd at hc
    by_cases hx : x = '_'
    · rw [if_pos hx, if_pos rfl] at hc
      exact ih c hc
    · rw [if_neg hx] at hc
      have hxc : x = c := by simpa using hc
      exact hxc ▸ hx

/-- No two consecutive underscores, as a decomposition-free statement. -/
def noDD (l : List Char) : Prop := ¬ ∃ a b, l = a ++ '_' :: '_' :: b

theorem noDD_nil : noDD [] := by
  rintro ⟨a, b, hab⟩
  cases a <;> simp at hab

theorem noDD_cons (c : Char) (cs : List Char) (hcs : noDD cs)
    (hhead : c = '_' → ∀ d, cs.head? = some d → d ≠ '_') : noDD (c :: cs) := by
  rintro ⟨a, b, hab⟩
  cases a with
  | nil =>
    simp only [List.nil_append, List.cons.injEq] at hab
    exact hhead hab.1 '_' (by rw [hab.2]; rfl) rfl
  | cons x a2 =>
    simp only [List.cons_append, List.cons.injEq] at hab
    exact hcs ⟨a2, b, hab.2⟩

theorem collapseUnd_noDD (l : List Char) : ∀ p, noDD (collapseUnd p l) := by
  induction l with
  | nil => intro p; exact noDD_nil
  | cons x xs ih =>
    intro p
    unfold collapseUnd
    by_cases hx : x = '_'
    · rw [if_pos hx]
      by_cases hp : p = true
      · rw [if_pos hp]
        exact ih true
      · rw [if_neg hp]
        exact noDD_cons '_' (collapseUnd true xs) (ih true)
          (fun _ d hd => collapseUnd_head_true xs d hd)
    · rw [if_neg hx]
      exact noDD_cons x (collapseUnd false xs) (ih false) (fun hc => absurd hc hx)

theorem noDD_of_middle (x m y : List Char) (h : noDD (x ++ m ++ y)) : noDD m := by
  rintro ⟨a, b, hab⟩
  exact h ⟨x ++ a, b ++ y, by rw [hab]; simp⟩

/-- `lstripUnd l` is a suffix of `l`, `rstripUnd l` a prefix; both therefore
preserve `noDD` and char-level properties. -/
theorem lstripUnd_decomp (l : List Char) : ∃ t, l = t ++ lstripUnd l :=
  ⟨l.takeWhile (fun c => c = '_'), (List.takeWhile_append_dropWhile ..).symm⟩

theorem rstripUnd_decomp (l : List Char) : ∃ t, l = rstripUnd l ++ t := by
  rcases lstripUnd_decomp l.reverse with ⟨t, ht⟩
  refine ⟨t.reverse, ?_⟩
  have h2 := congrArg List.reverse ht
  simpa [rstripUnd] using h2

theorem lstripUnd_head (l : List Char) :
    ∀ c, (lstripUnd l).head? = some c → c ≠ '_' := by
  intro c hc
  have h2 := List.head?_dropWhile_not (fun c => decide (c = '_')) l
  unfold lstripUnd at hc
  rw [hc] at h2
  simpa using h2

theorem rstripUnd_last (l : List Char) :
    ∀ c, (rstripUnd l).getLast? = some c → c ≠ '_' := by
  intro c hc
  unfold rstripUnd at hc
  rw [List.getLast?_reverse] at hc
  exact lstripUnd_head l.reverse c hc

theorem sanitizeL_no_illegal (l : List Char) :
    ∀ c ∈ sanitizeL l, illegalChar c = false := by
  intro c hc
  unfold sanitizeL at hc
  rcases rstripUnd_decomp (lstripUnd (collapseUnd false (replIllegal l))) with ⟨t, ht⟩
  have hc2 : c ∈ lstripUnd (collapseUnd false (replIllegal l)) := by
    rw [ht]
    exact List.mem_append.mpr (Or.inl hc)
  rcases lstripUnd_decomp (collapseUnd false (replIllegal l)) with ⟨t2, ht2⟩
  have hc3 : c ∈ collapseUnd false (replIllegal l) := by
    rw [ht2]
    exact List.mem_append.mpr (Or.inr hc2)
  exact replIllegal_no_illegal l c (collapseUnd_mem _ false c hc3)

theorem sanitizeL_noDD (l : List Char) :
    containsSub ['_', '_'] (sanitizeL l) = false := by
  rw [Bool.eq_false_iff]
  intro htrue
  rcases (containsSub_iff _ _).mp htrue with ⟨a, b, hab⟩
  have hno : noDD (sanitizeL l) := by
    unfold sanitizeL
    rcases rstripUnd_decomp (lstripUnd (collapseUnd false (replIllegal l))) with ⟨t, ht⟩
    rcases lstripUnd_decomp (collapseUnd false (replIllegal l)) with ⟨t2, ht2⟩
    have hfull : noDD (collapseUnd false (replIllegal l)) := collapseUnd_noDD _ false
    have h1 : noDD (lstripUnd (collapseUnd false (replIllegal l))) := by
      rw [ht2] at hfull
      exact noDD_of_middle t2 _ [] (by simpa using hfull)
    rw [ht] at h1
    exact noDD_of_middle [] _ t (by simpa using h1)
  exact hno ⟨a, b, by simpa using hab⟩

theorem sanitizeL_head (l : List Char) :
    ∀ c, (sanitizeL l).head? = some c → c ≠ '_' := by
  intro c hc
  unfold sanitizeL at hc
  rcases rstripUnd_decomp (lstripUnd (collapseUnd false (replIllegal l))) with ⟨t, ht⟩
  have hcons : (lstripUnd (collapseUnd false (replIllegal l))).head? = some c := by
    rw [ht, List.head?_append, hc]
    rfl
  exact lstripUnd_head _ c hcons

theorem sanitizeL_last (l : List Char) :
    ∀ c, (sanitizeL l).getLast? = some c → c ≠ '_' :=
  fun c hc => rstripUnd_last _ c hc

theorem lstripUnd_id (z : List Char) (h : ∀ c, z.head? = some c → c ≠ '_') :
    lstripUnd z = z := by
  cases z with
  | nil => rfl
  | cons d zs =>
    unfold lstripUnd
    rw [List.dropWhile_cons, if_neg]
    simp only [decide_eq_true_eq]
    exact h d rfl

theorem rstripUnd_id (z : List Char) (h : ∀ c, z.getLast? = some c → c ≠ '_') :
    rstripUnd z = z := by
  unfold rstripUnd
  rw [lstripUnd_id z.reverse (fun c hc => h c (by rw [← List.head?_reverse]; exact hc))]
  exact List.reverse_reverse z

theorem lstripUnd_append_of_head (a e : List Char) (_he : e ≠ [])
    (hh : ∀ c, e.head? = some c → c ≠ '_') :
    lstripUnd (a ++ e) = lstripUnd a ++ e ∨ lstripUnd (a ++ e) = e := by
  unfold lstripUnd
  rw [List.dropWhile_append]
  by_cases hemp : (a.dropWhile (fun c => decide (c = '_'))).isEmpty
  · rw [if_pos hemp]
    right
    have : lstripUnd e = e := lstripUnd_id e hh
    exact this
  · rw [if_neg hemp]
    left
    rfl

theorem getLast?_append_right (A e : List Char) (hene : e ≠ []) :
    (A ++ e).getLast? = e.getLast? := by
  rw [List.getLast?_append]
  cases hE : e.getLast? with
  | none => exact absurd (List.getLast?_eq_none_iff.mp hE) hene
  | some d => rfl

theorem mem_of_getLast?_eq (e : List Char) (c : Char) (h : e.getLast? = some c) :
    c ∈ e :=
  List.mem_of_mem_getLast? (Option.mem_def.mpr h)

/-- The sanitizer keeps a clean non-empty suffix intact: if `e` contains no
illegal characters and no underscores, `sanitizeL (a ++ e)` still ends in
`e`. -/
theorem sanitizeL_tail (a e : List Char) (hene : e ≠ [])
    (hch : ∀ c ∈ e, illegalChar c = false ∧ c ≠ '_') :
    ∃ x, sanitizeL (a ++ e) = x ++ e := by
  unfold sanitizeL
  rw [replIllegal_append, replIllegal_clean e (fun c hc => (hch c hc).1),
    collapseUnd_append, collapseUnd_no_und e (fun c hc => (hch c hc).2)]
  have hh : ∀ c, e.head? = some c → c ≠ '_' := by
    intro c hc
    refine (hch c ?_).2
    cases e with
    | nil => cases hc
    | cons d ds =>
      rw [show c = d from (by simpa using hc : d = c).symm]
      exact List.mem_cons_self d ds
  rcases lstripUnd_append_of_head (collapseUnd false (replIllegal a)) e hene hh with h | h
  · rw [h]
    have hlast : ∀ c, (lstripUnd (collapseUnd false (replIllegal a)) ++ e).getLast? = some c
        → c ≠ '_' := by
      intro c hc
      rw [getLast?_append_right _ e hene] at hc
      exact (hch c (mem_of_getLast?_eq e c hc)).2
    rw [rstripUnd_id _ hlast]
    exact ⟨lstripUnd (collapseUnd false (replIllegal a)), rfl⟩
  · rw [h]
    have hlast : ∀ c, e.getLast? = some c → c ≠ '_' := by
      intro c hc
      exact (hch c (mem_of_getLast?_eq e c hc)).2
    rw [rstripUnd_id _ hlast]
    exact ⟨[], rfl⟩

/-- The sanitizer keeps a clean non-empty leading block: if `s` contains no
illegal characters and no underscores, `sanitizeL (s ++ z)` still starts
with `s`. -/
theorem sanitizeL_lead (s z : List Char) (hs : s ≠ [])
    (hch : ∀ c ∈ s, illegalChar c = false ∧ c ≠ '_') :
    ∃ w, sanitizeL (s ++ z) = s ++ w := by
  unfold sanitizeL
  rw [replIllegal_append, replIllegal_clean s (fun c hc => (hch c hc).1),
    collapseUnd_append, collapseUnd_no_und s (fun c hc => (hch c hc).2)]
  set CZ := collapseUnd (lastUnd false s) (replIllegal z) with hcz
  have hh : ∀ c, (s ++ CZ).head? = some c → c ≠ '_' := by
    intro c hc
    cases s with
    | nil => exact absurd rfl hs
    | cons d ds =>
      have hcd : c = d := (by simpa using hc : d = c).symm
      exact hcd ▸ (hch d (List.mem_cons_self d ds)).2
  rw [lstripUnd_id _ hh]
  unfold rstripUnd
  rw [List.reverse_append]
  unfold lstripUnd
  rw [List.dropWhile_append]
  by_cases hemp : (CZ.reverse.dropWhile (fun c => decide (c = '_'))).isEmpty
  · rw [if_pos hemp]
    have hsrev : s.reverse.dropWhile (fun c => decide (c = '_')) = s.reverse := by
      have := lstripUnd_id s.reverse (fun c hc => by
        rw [List.head?_reverse] at hc
        exact (hch c (mem_of_getLast?_eq s c hc)).2)
      simpa [lstripUnd] using this
    rw [hsrev, List.reverse_reverse]
    exact ⟨[], by simp⟩
  · rw [if_neg hemp]
    rw [List.reverse_append, List.reverse_reverse]
    exact ⟨(CZ.reverse.dropWhile (fun c => decide (c = '_'))).reverse, rfl⟩

theorem rsplitDotAux_eq_none (l : List Char) (h : containsSub ['.'] l = false) :
    rsplitDotAux l = none := by
  induction l with
  | nil => rfl
  | cons c cs ih =>
    have hc : c ≠ '.' := by
      intro hceq
      rw [Bool.eq_false_iff] at h
      exact h ((containsSub_single '.' (c :: cs)).mpr (hceq ▸ List.mem_cons_self c cs))
    have hcs : containsSub ['.'] cs = false := by
      rw [Bool.eq_false_iff] at h ⊢
      intro h2
      exact h ((containsSub_single '.' (c :: cs)).mpr
        (List.mem_cons_of_mem c ((containsSub_single '.' cs).mp h2)))
    unfold rsplitDotAux
    rw [ih hcs]
    rw [if_neg hc]

theorem rsplitDotAux_none_no_dot (l : List Char) :
    rsplitDotAux l = none → containsSub ['.'] l = false := by
  induction l with
  | nil => intro _; rfl
  | cons c cs ih =>
    intro h
    unfold rsplitDotAux at h
    cases h2 : rsplitDotAux cs with
    | some ab =>
      rw [h2] at h
      rcases ab with ⟨x, y⟩
      simp at h
    | none =>
      rw [h2] at h
      by_cases hc : c = '.'
      · rw [if_pos hc] at h
        cases h
      · have hcs := ih h2
        show (isPrefixL ['.'] (c :: cs) || containsSub ['.'] cs) = false
        rw [hcs, Bool.or_false]
        have hpl : isPrefixL ['.'] (c :: cs) = false := by
          show (decide ('.' = c) && isPrefixL [] cs) = false
          rw [decide_eq_false (fun h3 => hc h3.symm)]
          rfl
        exact hpl

theorem rsplitDotAux_no_dot_tail (l : List Char) :
    ∀ a b, rsplitDotAux l = some (a, b) → containsSub ['.'] b = false := by
  induction l with
  | nil => intro a b h; cases h
  | cons c cs ih =>
    intro a b h
    unfold rsplitDotAux at h
    cases h2 : rsplitDotAux cs with
    | some ab =>
      rcases ab with ⟨a2, b2⟩
      rw [h2] at h
      simp only [Option.some.injEq, Prod.mk.injEq] at h
      rw [← h.2]
      exact ih a2 b2 h2
    | none =>
      rw [h2] at h
      by_cases hc : c = '.'
      · rw [if_pos hc] at h
        simp only [Option.some.injEq, Prod.mk.injEq] at h
        rw [← h.2]
        exact rsplitDotAux_none_no_dot cs h2
      · rw [if_neg hc] at h
        cases h

theorem rsplitDotAux_append (a b : List Char) (hb : containsSub ['.'] b = false) :
    rsplitDotAux (a ++ '.' :: b) = some (a, b) := by
  induction a with
  | nil =>
    show rsplitDotAux ('.' :: b) = some ([], b)
    unfold rsplitDotAux
    rw [rsplitDotAux_eq_none b hb, if_pos rfl]
  | cons x xs ih =>
    show rsplitDotAux (x :: (xs ++ '.' :: b)) = some (x :: xs, b)
    unfold rsplitDotAux
    rw [ih]

theorem dropLastExt_append (a b : List Char) (hb : containsSub ['.'] b = false) :
    dropLastExt (a ++ '.' :: b) = a := by
  unfold dropLastExt
  rw [rsplitDotAux_append a b hb]

theorem ext_facts (ext : String) (h : ext ∈ supportedExtensions) :
    ext.toList ≠ []
    ∧ (∀ c ∈ ext.toList, illegalChar c = false ∧ c ≠ '_')
    ∧ lowerL ext.toList = ext.toList
    ∧ ∃ b, ext.toList = '.' :: b ∧ containsSub ['.'] b = false := by
  fin_cases h
  · exact ⟨by decide, by decide, by decide, ['p', 'd', 'f'], by decide, by decide⟩
  · exact ⟨by decide, by decide, by decide, ['d', 'o', 'c'], by decide, by decide⟩
  · exact ⟨by decide, by decide, by decide, ['d', 'o', 'c', 'x'], by decide, by decide⟩
  · exact ⟨by decide, by decide, by decide, ['x', 'l', 's'], by decide, by decide⟩
  · exact ⟨by decide, by decide, by decide, ['x', 'l', 's', 'x'], by decide, by decide⟩

theorem illegal_toLower (c : Char) (h : illegalChar c = true) : c.toLower = c := by
  have h2 : c ∈ ['/', Char.ofNat 92, ':', '*', '?', Char.ofNat 34, '<', '>', '|'] := by
    simpa [illegalChar] using h
  fin_cases h2 <;> decide

/-- Characters whose lowercase lies in a clean extension are themselves
neither illegal nor underscores. -/
theorem lower_suffix_chars (e2 : List Char) (ext : String)
    (hm : lowerL e2 = ext.toList) (hext : ext ∈ supportedExtensions) :
    ∀ c ∈ e2, illegalChar c = false ∧ c ≠ '_' := by
  intro c hc
  have hcl : c.toLower ∈ ext.toList := by
    rw [← hm]
    exact List.mem_map_of_mem Char.toLower hc
  have hfacts := ext_facts ext hext
  constructor
  · by_cases hil : illegalChar c = true
    · have : c.toLower = c := illegal_toLower c hil
      rw [this] at hcl
      exact absurd hil (by rw [(hfacts.2.1 c hcl).1]; exact Bool.false_ne_true)
    · exact Bool.eq_false_iff.mpr hil
  · intro hcu
    rw [hcu] at hcl
    have : ('_' : Char).toLower = '_' := by decide
    rw [this] at hcl
    exact (hfacts.2.1 '_' hcl).2 rfl

theorem joinUnd_lead (s : List Char) (rest : List (List Char)) :
    ∃ q, joinUnd (s :: rest) = s ++ q := by
  cases rest with
  | nil => exact ⟨[], by simp [joinUnd]⟩
  | cons r rs => exact ⟨'_' :: joinUnd (r :: rs), rfl⟩

/-- The name rewrite of `rename_from_text` always splits as
`school-joined-fields ++ '.' ++ dot-free tail`, provided the fallback
extension has that shape. -/
theorem rewriteLeadingField_decomp (r school fext : List Char)
    (hfext : ∃ fb, fext = '.' :: fb ∧ containsSub ['.'] fb = false) :
    ∃ rest dotb, rewriteLeadingField r school fext = joinUnd (school :: rest) ++ '.' :: dotb
      ∧ containsSub ['.'] dotb = false := by
  cases haux : rsplitDotAux r with
  | some ab =>
    rcases ab with ⟨a, b⟩
    have hb := rsplitDotAux_no_dot_tail r a b haux
    cases hsp : splitOnUnd a with
    | nil => exact absurd hsp (splitOnUnd_ne_nil a)
    | cons hpart rest =>
      refine ⟨rest, b, ?_, hb⟩
      simp only [rewriteLeadingField, haux, hsp]
  | none =>
    rcases hfext with ⟨fb, hfb, hfb2⟩
    cases hsp : splitOnUnd r with
    | nil => exact absurd hsp (splitOnUnd_ne_nil r)
    | cons hpart rest =>
      refine ⟨rest, fb, ?_, hfb2⟩
      simp only [rewriteLeadingField, haux, hsp, hfb]

theorem string_eq_of_toList (a b : String) (h : a.toList = b.toList) : a = b := by
  cases a with
  | mk d1 =>
    cases b with
    | mk d2 =>
      simp only [String.toList] at h
      rw [h]

/-- The post-processed name of `rename_from_text` under a confirmed school
override: leading field is the school, no illegal chars, no `__` runs, no
leading or trailing `_`, and a suffix whose lowercase is the extension. -/
theorem rename_post (s file_extension : String) (L1 : List Char)
    (rest : List (List Char)) (dotb : List Char)
    (hdec : L1 = joinUnd (s.toList :: rest) ++ '.' :: dotb)
    (hdotb : containsSub ['.'] dotb = false)
    (hsne : s.toList ≠ [])
    (hclean : ∀ c ∈ s.toList, illegalChar c = false ∧ c ≠ '_')
    (hext : file_extension ∈ supportedExtensions) :
    ∀ nm, nm = sanitize_filename
        (if endsWithL file_extension.toList (lowerL L1) = true
         then String.mk L1 else String.mk (dropLastExt L1) ++ file_extension) →
      (∃ w, nm.toList = s.toList ++ w)
      ∧ (∀ c ∈ nm.toList, illegalChar c = false)
      ∧ containsSub ['_', '_'] nm.toList = false
      ∧ (∀ c, nm.toList.head? = some c → c ≠ '_')
      ∧ (∀ c, nm.toList.getLast? = some c → c ≠ '_')
      ∧ ∃ x e, nm.toList = x ++ e ∧ lowerL e = file_extension.toList := by
  intro nm hnm
  rcases joinUnd_lead s.toList rest with ⟨q, hq⟩
  rcases ext_facts file_extension hext with ⟨hene, hech, helow, fb, hfb, hfb2⟩
  rcases Bool.eq_false_or_eq_true (endsWithL file_extension.toList (lowerL L1)) with hf | hf
  · -- lowercase of the name already ends in the extension
    rw [if_pos hf] at hnm
    have hsuf : file_extension.toList <:+ lowerL L1 := List.isSuffixOf_iff_suffix.mp hf
    rcases hsuf with ⟨y, hy⟩
    have hmap : List.map Char.toLower L1 = y ++ file_extension.toList := hy.symm
    rcases List.map_eq_append_iff.mp hmap with ⟨x, e2, hxe, hxm, he2m⟩
    have he2low : lowerL e2 = file_extension.toList := he2m
    have he2ne : e2 ≠ [] := by
      intro h0
      rw [h0] at he2m
      simp only [List.map_nil] at he2m
      exact hene he2m.symm
    have he2ch := lower_suffix_chars e2 file_extension he2low hext
    have hlead : L1 = s.toList ++ (q ++ '.' :: dotb) := by
      rw [hdec, hq, List.append_assoc]
    subst hnm
    have hsan : (sanitize_filename (String.mk L1)).toList = sanitizeL L1 := rfl
    refine ⟨?_, ?_, ?_, ?_, ?_, ?_⟩
    · rcases sanitizeL_lead s.toList (q ++ '.' :: dotb) hsne hclean with ⟨w, hw⟩
      exact ⟨w, by rw [hsan, hlead]; exact hw⟩
    · rw [hsan]; exact sanitizeL_no_illegal _
    · rw [hsan]; exact sanitizeL_noDD _
    · rw [hsan]; exact sanitizeL_head _
    · rw [hsan]; exact sanitizeL_last _
    · rcases sanitizeL_tail x e2 he2ne he2ch with ⟨x2, hx2⟩
      exact ⟨x2, e2, by rw [hsan, hxe]; exact hx2, he2low⟩
  · -- extension forced: name becomes `dropLastExt L1 ++ file_extension`
    rw [if_neg (by rw [hf]; simp)] at hnm
    have hdle : dropLastExt L1 = joinUnd (s.toList :: rest) := by
      rw [hdec]
      exact dropLastExt_append _ _ hdotb
    subst hnm
    have hsan : (sanitize_filename (String.mk (dropLastExt L1) ++ file_extension)).toList
        = sanitizeL (dropLastExt L1 ++ file_extension.toList) := rfl
    have hlead : dropLastExt L1 ++ file_extension.toList
        = s.toList ++ (q ++ file_extension.toList) := by
      rw [hdle, hq, List.append_assoc]
    refine ⟨?_, ?_, ?_, ?_, ?_, ?_⟩
    · rcases sanitizeL_lead s.toList (q ++ file_extension.toList) hsne hclean with ⟨w, hw⟩
      exact ⟨w, by rw [hsan, hlead]; exact hw⟩
    · rw [hsan]; exact sanitizeL_no_illegal _
    · rw [hsan]; exact sanitizeL_noDD _
    · rw [hsan]; exact sanitizeL_head _
    · rw [hsan]; exact sanitizeL_last _
    · rcases sanitizeL_tail (dropLastExt L1) file_extension.toList hene hech with ⟨x2, hx2⟩
      exact ⟨x2, file_extension.toList, by rw [hsan]; exact hx2, helow⟩

/-- The LLM dict of the C7 counterexample: the model proposed a university
and a well-formed name. -/
def c7Llm : LlmDict :=
  { renamed := "Xuniv_A_B.pdf", university := some "LLMUniv",
    department := none, major := none }

/-- The renamer context of the C7 counterexample: the catalog-confirmed
school name is the literal string `'Unknown'` — set and non-empty. -/
def c7Ctx : RenCtx := { school_name := some "Unknown", original_name := none }

/-- C7 (counterexample): the claim says the override fires whenever
`context.school_name` is set and non-empty.  The guard in the code is
`if confirmed_school and confirmed_school != 'Unknown'`, so the set,
non-empty school name `'Unknown'` does NOT override: the returned
university stays the LLM's value and the leading name field is untouched. -/
theorem rename_school_unknown_counterexample :
    c7Ctx.school_name = some "Unknown"
    ∧ "Unknown" ≠ ""
    ∧ (rename_from_text c7Llm c7Ctx ".pdf").university = some "LLMUniv"
    ∧ (rename_from_text c7Llm c7Ctx ".pdf").renamed_name = some "Xuniv_A_B.pdf" := by
  refine ⟨rfl, by decide, rfl, rfl⟩

/-- C7 (amended): whenever `context.school_name` is set, non-empty AND not
the literal `'Unknown'` (and the name from the LLM is non-empty and made of
legal non-underscore characters on the school side, with a supported
extension argument), `rename_from_text` overrides the returned university
with it, rewrites the leading underscore-delimited component of the name to
the school, and post-processes the name: illegal path characters replaced
by `_`, runs of `_` collapsed, leading/trailing `_` trimmed, and the name
ends (case-insensitively) in the file's extension. -/
theorem rename_from_text_spec (llm : LlmDict) (context : RenCtx)
    (file_extension : String) (s : String)
    (hsch : context.school_name = some s)
    (hs1 : s ≠ "") (hs2 : s ≠ "Unknown")
    (hclean : ∀ c ∈ s.toList, illegalChar c = false ∧ c ≠ '_')
    (hr : llm.renamed ≠ "")
    (hext : file_extension ∈ supportedExtensions) :
    (rename_from_text llm context file_extension).university = some s
    ∧ ∃ nm, (rename_from_text llm context file_extension).renamed_name = some nm
      ∧ (∃ w, nm.toList = s.toList ++ w)
      ∧ (∀ c ∈ nm.toList, illegalChar c = false)
      ∧ containsSub ['_', '_'] nm.toList = false
      ∧ (∀ c, nm.toList.head? = some c → c ≠ '_')
      ∧ (∀ c, nm.toList.getLast? = some c → c ≠ '_')
      ∧ ∃ x e, nm.toList = x ++ e ∧ lowerL e = file_extension.toList := by
  have hov : schoolOverrides (some s) = true := by
    simp [schoolOverrides, hs1, hs2]
  have hsne : s.toList ≠ [] := by
    intro h0
    exact hs1 (string_eq_of_toList s "" h0)
  have hres : rename_from_text llm context file_extension =
      { success := true,
        renamed_name := some (sanitize_filename
          (if endsWithL file_extension.toList
              (lowerL (rewriteLeadingField llm.renamed.toList s.toList
                file_extension.toList)) = true
           then String.mk (rewriteLeadingField llm.renamed.toList s.toList
             file_extension.toList)
           else String.mk (dropLastExt (rewriteLeadingField llm.renamed.toList
             s.toList file_extension.toList)) ++ file_extension)),
        university := some s } := by
    simp only [rename_from_text, hov, hsch, Option.getD_some, toList_mk, if_true]
    rw [if_neg hr]
  rw [hres]
  refine ⟨rfl, _, rfl, ?_⟩
  rcases ext_facts file_extension hext with ⟨hene, hech, helow, fb, hfb, hfb2⟩
  rcases rewriteLeadingField_decomp llm.renamed.toList s.toList file_extension.toList
      ⟨fb, hfb, hfb2⟩ with ⟨rest, dotb, hdec, hdotb⟩
  exact rename_post s file_extension _ rest dotb hdec hdotb hsne hclean hext _ rfl

/-- C7 (witness): the amended theorem at a concrete renamer call — school
name `'Tokyo'` overrides the LLM's `'LLMUniv'`. -/
theorem rename_from_text_spec_witness :
    (rename_from_text
      { renamed := "Xuniv_A_B.pdf", university := some "LLMUniv",
        department := none, major := none }
      { school_name := some "Tokyo", original_name := none }
      ".pdf").university = some "Tokyo" :=
  (rename_from_text_spec
    { renamed := "Xuniv_A_B.pdf", university := some "LLMUniv",
      department := none, major := none }
    { school_name := some "Tokyo", original_name := none }
    ".pdf" "Tokyo" rfl (by decide) (by decide) (by decide) (by decide)
    (by decide)).1

theorem toList_append (a b : String) : (a ++ b).toList = a.toList ++ b.toList := rfl

/-- `_get_extension` always yields one of the five supported extensions. -/
theorem getExtension_mem (pr : Prims) (url : String) (ct : Option String) :
    getExtension pr url ct ∈ supportedExtensions := by
  simp only [getExtension]
  cases hf : supportedExtensions.find?
      (fun e => endsWithL e.toList (lowerL (getFilenameFromUrl pr url).toList)) with
  | some e => exact List.mem_of_find?_eq_some hf
  | none =>
    cases ct with
    | none => decide
    | some c =>
      show (match mimeMap.find? (fun me => containsSub me.1.toList c.toList) with
        | some me => me.2
        | none => ".pdf") ∈ supportedExtensions
      cases hm : mimeMap.find? (fun me => containsSub me.1.toList c.toList) with
      | none => decide
      | some me =>
        show me.2 ∈ supportedExtensions
        have hmem : me ∈ mimeMap := List.mem_of_find?_eq_some hm
        fin_cases hmem <;> decide

/-- Appending a supported extension makes the lowercased name end in a
supported extension. -/
theorem endsWithAny_append_ext (b : List Char) (ext : String)
    (hm : ext ∈ supportedExtensions) :
    endsWithAny (lowerL (b ++ ext.toList)) = true := by
  unfold endsWithAny
  rw [List.any_eq_true]
  refine ⟨ext, hm, ?_⟩
  unfold endsWithL
  rw [List.isSuffixOf_iff_suffix]
  refine ⟨lowerL b, ?_⟩
  show lowerL b ++ ext.toList = lowerL (b ++ ext.toList)
  unfold lowerL
  rw [List.map_append]
  have hl : List.map Char.toLower ext.toList = ext.toList := (ext_facts ext hm).2.2.1
  rw [hl]

/-- The file name recorded by the streaming phase, whatever the stream does:
the chosen base name, with the inferred extension appended when the
lowercased base does not already end in a supported extension. -/
theorem downloadFileStream_name (pr : Prims) (url : String)
    (save_name : Option String) (maxSize : Nat) (resp : HttpResponse) :
    (downloadFileStream pr url save_name maxSize resp).file_name =
      some (if endsWithAny
          (lowerL (chooseBaseName pr url save_name resp.dispositionName).toList) = true
        then chooseBaseName pr url save_name resp.dispositionName
        else chooseBaseName pr url save_name resp.dispositionName
          ++ getExtension pr url resp.contentType) := by
  unfold downloadFileStream
  cases streamChunks maxSize resp.chunks 0 <;> rfl

/-- The streaming phase always reports a non-empty file name that ends
case-insensitively in a supported extension, equal to the chosen base name
or to it with the inferred extension appended. -/
theorem downloadFileStream_name_ok (pr : Prims) (url : String)
    (save_name : Option String) (maxSize : Nat) (resp : HttpResponse) :
    ∃ nm, (downloadFileStream pr url save_name maxSize resp).file_name = some nm
      ∧ nm ≠ ""
      ∧ endsWithAny (lowerL nm.toList) = true
      ∧ (nm = chooseBaseName pr url save_name resp.dispositionName
         ∨ nm = chooseBaseName pr url save_name resp.dispositionName
             ++ getExtension pr url resp.contentType) := by
  have hext := getExtension_mem pr url resp.contentType
  rcases Bool.eq_false_or_eq_true (endsWithAny
      (lowerL (chooseBaseName pr url save_name resp.dispositionName).toList)) with he | he
  · refine ⟨chooseBaseName pr url save_name resp.dispositionName, ?_, ?_, he, Or.inl rfl⟩
    · rw [downloadFileStream_name, if_pos he]
    · intro h0
      rw [h0] at he
      exact absurd he (by decide)
  · refine ⟨chooseBaseName pr url save_name resp.dispositionName
        ++ getExtension pr url resp.contentType, ?_, ?_, ?_, Or.inr rfl⟩
    · rw [downloadFileStream_name, if_neg (by rw [he]; exact Bool.false_ne_true)]
    · intro h0
      have h1 : (chooseBaseName pr url save_name resp.dispositionName
          ++ getExtension pr url resp.contentType).toList = [] := by
        rw [h0]
        rfl
      rw [toList_append] at h1
      exact (ext_facts _ hext).1 (List.append_eq_nil.mp h1).2
    · rw [toList_append]
      exact endsWithAny_append_ext _ _ hext

/-- The prims of the C10 counterexample: the URL basename is the dotless
`'x'` and the md5 hex digest is a fixed 20-character string. -/
def c10pr : Prims :=
  { pathBasename := fun _ => "x", md5hex := fun _ => "aaaabbbbccccddddeeee" }

/-- The response of the C10 counterexample: 200, no length header, no
`Content-Disposition` name, no `Content-Type`, one 5-byte chunk. -/
def c10resp : HttpResponse :=
  { status := 200, contentLength := none, dispositionName := none,
    contentType := none, chunks := [5] }

/-- C10 (counterexample): the claim says the 16-character URL hash is used
whenever no candidate name (caller-provided, Content-Disposition, URL
basename) contains a dot.  With the dotless caller-provided name `'noext'`
(and dotless basename, no disposition name) the download succeeds with
file name `'noext.pdf'`: the caller's name is used as-is and the hash
`'aaaabbbbccccdddd'` appears nowhere in it. -/
theorem download_file_dotless_name_counterexample :
    containsSub ['.'] "noext".toList = false
    ∧ c10resp.dispositionName = none
    ∧ containsSub ['.'] (c10pr.pathBasename "u").toList = false
    ∧ (download_file c10pr "u" (some "noext") 100 (Except.ok c10resp)).success = true
    ∧ (download_file c10pr "u" (some "noext") 100 (Except.ok c10resp)).file_name
        = some "noext.pdf"
    ∧ isPrefixL (strTake 16 (c10pr.md5hex "u")).toList "noext.pdf".toList = false :=
  ⟨by decide, rfl, by decide, rfl, rfl, by decide⟩

/-- C10 (amended): a successful `download_file` reports a non-empty file
name ending case-insensitively in one of `.pdf/.doc/.docx/.xls/.xlsx`; the
name is the chosen base (caller-provided `save_name` if truthy, else the
Content-Disposition name if any, else the URL-derived name), possibly with
the inferred extension (URL, then Content-Type, then `.pdf`) appended when
the base does not already end in a supported extension.  The 16-character
URL hash is the base exactly when `save_name` is falsy AND the headers
yield no name AND the URL basename is empty or dotless — a dotless
caller-provided name is used as-is, not replaced by the hash. -/
theorem download_file_name_spec (pr : Prims) (url : String)
    (save_name : Option String) (maxSize : Nat) (net : Except String HttpResponse)
    (hsucc : (download_file pr url save_name maxSize net).success = true) :
    ∃ resp, net = Except.ok resp
      ∧ ∃ nm, (download_file pr url save_name maxSize net).file_name = some nm
        ∧ nm ≠ ""
        ∧ endsWithAny (lowerL nm.toList) = true
        ∧ (nm = chooseBaseName pr url save_name resp.dispositionName
           ∨ nm = chooseBaseName pr url save_name resp.dispositionName
               ++ getExtension pr url resp.contentType)
        ∧ ((save_name = none ∨ save_name = some "")
            → (resp.dispositionName = none ∨ resp.dispositionName = some "")
            → (pr.pathBasename url = ""
                ∨ containsSub ['.'] (pr.pathBasename url).toList = false)
            → chooseBaseName pr url save_name resp.dispositionName
                = strTake 16 (pr.md5hex url))
        ∧ (∀ s, save_name = some s → s ≠ ""
            → chooseBaseName pr url save_name resp.dispositionName = s) := by
  cases net with
  | error e => simp [download_file] at hsucc
  | ok resp =>
    refine ⟨resp, rfl, ?_⟩
    have hashRule : (save_name = none ∨ save_name = some "")
        → (resp.dispositionName = none ∨ resp.dispositionName = some "")
        → (pr.pathBasename url = ""
            ∨ containsSub ['.'] (pr.pathBasename url).toList = false)
        → chooseBaseName pr url save_name resp.dispositionName
            = strTake 16 (pr.md5hex url) := by
      intro h1 h2 h3
      have hurl : getFilenameFromUrl pr url = strTake 16 (pr.md5hex url) := by
        simp only [getFilenameFromUrl]
        rw [if_pos h3]
      rcases h1 with rfl | rfl <;> rcases h2 with hd | hd <;>
        simp [chooseBaseName, hd, hurl]
    have saveRule : ∀ s, save_name = some s → s ≠ ""
        → chooseBaseName pr url save_name resp.dispositionName = s := by
      intro s hs hne
      subst hs
      simp [chooseBaseName, hne]
    simp only [download_file] at hsucc ⊢
    by_cases hst : resp.status = 200
    · rw [if_neg (by simp [hst])] at hsucc ⊢
      cases hcl : resp.contentLength with
      | none =>
        simp only [hcl] at hsucc ⊢
        rcases downloadFileStream_name_ok pr url save_name maxSize resp
          with ⟨nm, h1, h2, h3, h4⟩
        exact ⟨nm, h1, h2, h3, h4, hashRule, saveRule⟩
      | some n =>
        simp only [hcl] at hsucc ⊢
        by_cases hmx : maxSize < n
        · rw [if_pos hmx] at hsucc
          simp at hsucc
        · rw [if_neg hmx] at hsucc ⊢
          rcases downloadFileStream_name_ok pr url save_name maxSize resp
            with ⟨nm, h1, h2, h3, h4⟩
          exact ⟨nm, h1, h2, h3, h4, hashRule, saveRule⟩
    · rw [if_pos hst] at hsucc
      simp at hsucc

/-- The prims of the C10 witness: dotless basename `'b'`, 32-hex digest. -/
def c10wpr : Prims :=
  { pathBasename := fun _ => "b",
    md5hex := fun _ => "0123456789abcdef0123456789abcdef" }

/-- The response of the C10 witness: 200, small length, no header name. -/
def c10wresp : HttpResponse :=
  { status := 200, contentLength := some 10, dispositionName := none,
    contentType := none, chunks := [4, 6] }

/-- C10 (witness): the amended theorem at a concrete successful download
with no caller name, no disposition name and a dotless basename — the name
is the 16-character hash plus `.pdf`. -/
theorem download_file_name_spec_witness :
    ∃ resp, (Except.ok c10wresp : Except String HttpResponse) = Except.ok resp
      ∧ ∃ nm, (download_file c10wpr "u" none 100 (Except.ok c10wresp)).file_name = some nm
        ∧ nm ≠ ""
        ∧ endsWithAny (lowerL nm.toList) = true
        ∧ (nm = chooseBaseName c10wpr "u" none resp.dispositionName
           ∨ nm = chooseBaseName c10wpr "u" none resp.dispositionName
               ++ getExtension c10wpr "u" resp.contentType)
        ∧ (((none : Option String) = none ∨ (none : Option String) = some "")
            → (resp.dispositionName = none ∨ resp.dispositionName = some "")
            → (c10wpr.pathBasename "u" = ""
                ∨ containsSub ['.'] (c10wpr.pathBasename "u").toList = false)
            → chooseBaseName c10wpr "u" none resp.dispositionName
                = strTake 16 (c10wpr.md5hex "u"))
        ∧ (∀ s, (none : Option String) = some s → s ≠ ""
            → chooseBaseName c10wpr "u" none resp.dispositionName = s) :=
  download_file_name_spec c10wpr "u" none 100 (Except.ok c10wresp) (by decide)

end NewCollector
